import Mathlib

/-!
# s3-set-acl

A model of `run` (file `s3-set-acl.go`): one producer goroutine lists the
bucket page by page and hands every decoded key to the unbuffered channel
`work`; ten worker goroutines receive from `work` and call
`PutObjectAclWithContext` on every key; an `errgroup` collects the first
error and cancels the shared context.

The goroutines are modelled as a labelled transition system: `step` fires one
action of one goroutine, `exec` runs a schedule (a list of labels), and the
outcomes of the outside world (the page requests, the ACL calls, the ticker,
the state file) are carried by the labels.
-/

namespace S3SetAcl

/-! ## Go values -/

/-- A Go `string` is a sequence of bytes. -/
abbrev GoString := List Nat

/-- The bytes (UTF-8) of a string literal. -/
def str (s : String) : GoString :=
  s.data.flatMap (fun c => (String.utf8EncodeChar c).map UInt8.toNat)

/-- Go `error` values that occur in `run`; `nil` is `none : Option Error`. -/
inductive Error
  /-- the value of `fmt.Errorf(msg)` -/
  | errorf (msg : String)
  /-- the value `url.EscapeError(frag)` -/
  | escape (frag : GoString)
  /-- the value `context.Canceled`, which `ctx.Err()` returns after cancellation -/
  | canceled
  /-- any error reported by the AWS SDK (session, listing, ACL call) -/
  | remote (code : Nat)
  deriving DecidableEq, Repr

/-! ## Standard library: `url.QueryUnescape` and `bytes.TrimSpace` -/

/-- Go `ishex` of package `net/url`. -/
def ishex (c : Nat) : Bool :=
  (48 ≤ c && c ≤ 57) || (97 ≤ c && c ≤ 102) || (65 ≤ c && c ≤ 70)

/-- Go `unhex` of package `net/url`. -/
def unhex (c : Nat) : Nat :=
  if 48 ≤ c ∧ c ≤ 57 then c - 48
  else if 97 ≤ c ∧ c ≤ 102 then c - 97 + 10
  else if 65 ≤ c ∧ c ≤ 70 then c - 65 + 10
  else 0

/-- The first loop of `unescape` in `net/url` (mode `encodeQueryComponent`):
the first `%` that is not followed by two hex digits, cut to three bytes. -/
def badEscape : GoString → Option GoString
  | [] => none
  | c :: rest =>
    if c = 37 then
      match rest with
      | a :: b :: rest2 => if ishex a && ishex b then badEscape rest2 else some [c, a, b]
      | _ => some (c :: rest)
    else badEscape rest

/-- The second loop of `unescape` in `net/url` (mode `encodeQueryComponent`):
`%XY` becomes the byte `unhex X << 4 | unhex Y` and `+` becomes a blank. -/
def unescapeBytes : GoString → GoString
  | [] => []
  | c :: rest =>
    if c = 37 then
      match rest with
      | a :: b :: rest2 => (unhex a * 16 + unhex b) :: unescapeBytes rest2
      | _ => c :: rest
    else if c = 43 then 32 :: unescapeBytes rest
    else c :: unescapeBytes rest

/-- Go `url.QueryUnescape`. -/
def QueryUnescape (s : GoString) : Except Error GoString :=
  match badEscape s with
  | some frag => .error (.escape frag)
  | none => .ok (unescapeBytes s)

/-- The UTF-8 encodings of the code points for which Go `unicode.IsSpace`
holds: tab, line feed, vertical tab, form feed, carriage return, blank,
U+0085, U+00A0, U+1680, U+2000 to U+200A, U+2028, U+2029, U+202F, U+205F,
U+3000. -/
def spaces : List GoString :=
  [[9], [10], [11], [12], [13], [32], [0xC2, 0x85], [0xC2, 0xA0], [0xE1, 0x9A, 0x80],
   [0xE2, 0x80, 0x80], [0xE2, 0x80, 0x81], [0xE2, 0x80, 0x82], [0xE2, 0x80, 0x83],
   [0xE2, 0x80, 0x84], [0xE2, 0x80, 0x85], [0xE2, 0x80, 0x86], [0xE2, 0x80, 0x87],
   [0xE2, 0x80, 0x88], [0xE2, 0x80, 0x89], [0xE2, 0x80, 0x8A], [0xE2, 0x80, 0xA8],
   [0xE2, 0x80, 0xA9], [0xE2, 0x80, 0xAF], [0xE2, 0x81, 0x9F], [0xE3, 0x80, 0x80]]

/-- The rest of `s` after its first rune, when that rune is white space. -/
def dropSpace (s : GoString) : Option GoString :=
  spaces.findSome? (fun e => if e.isPrefixOf s then some (s.drop e.length) else none)

/-- The part of `s` before its last rune, when that rune is white space. -/
def dropLastSpace (s : GoString) : Option GoString :=
  spaces.findSome? (fun e => if e.isSuffixOf s then some (s.take (s.length - e.length)) else none)

/-- Removes leading white space; `n` bounds the number of runes removed. -/
def trimLeft : Nat → GoString → GoString
  | 0, s => s
  | n + 1, s =>
    match dropSpace s with
    | some r => trimLeft n r
    | none => s

/-- Removes trailing white space; `n` bounds the number of runes removed. -/
def trimRight : Nat → GoString → GoString
  | 0, s => s
  | n + 1, s =>
    match dropLastSpace s with
    | some r => trimRight n r
    | none => s

/-- Go `bytes.TrimSpace`: all leading and trailing white space, as defined by
Unicode, is sliced off. -/
def TrimSpace (s : GoString) : GoString :=
  trimRight s.length (trimLeft s.length s)

/-! ## The listing -/

/-- An `s3.Object` of a listing page; `Key` is a `*string`. -/
structure Object where
  Key : Option GoString
  deriving DecidableEq, Repr

/-- One page of the listing, `s3.ListObjectsV2Output`. -/
structure ListObjectsV2Output where
  Contents : List Object
  deriving DecidableEq, Repr

/-! ## Observable events -/

/-- The calls `run` makes to the outside world, and the hand-overs on `work`. -/
inductive Event
  /-- the call `session.NewSession()` -/
  | newSession
  /-- the call `ioutil.ReadFile(lastKeyFile)` -/
  | readFile
  /-- one page request of `ListObjectsV2PagesWithContext`, with `input.StartAfter` -/
  | list (startAfter : Option GoString)
  /-- the send `work <- s` went through -/
  | enqueue (s : GoString)
  /-- the call `svc.PutObjectAclWithContext(ctx, input)` with `input.Key = &s` -/
  | mutate (s : GoString)
  /-- the call `ioutil.WriteFile(lastKeyFile, []byte(s), 0666)` and whether it succeeded -/
  | write (s : GoString) (ok : Bool)
  deriving DecidableEq, Repr

/-- The identifiers handed to `work`, in order. -/
def enqueued : List Event → List GoString
  | [] => []
  | .enqueue s :: es => s :: enqueued es
  | _ :: es => enqueued es

/-- The identifiers passed to the ACL call, in order of the calls. -/
def mutated : List Event → List GoString
  | [] => []
  | .mutate s :: es => s :: mutated es
  | _ :: es => mutated es

/-- The identifiers passed to `ioutil.WriteFile`, in order. -/
def written : List Event → List GoString
  | [] => []
  | .write s _ :: es => s :: written es
  | _ :: es => written es

/-! ## A worker goroutine (lines 48 to 67) -/

/-- Where a worker goroutine stands. -/
inductive Worker
  /-- blocked in the `select` of line 54 -/
  | selecting
  /-- received `s` (line 57); `PutObjectAclWithContext` has not returned yet -/
  | calling (s : GoString)
  /-- the goroutine returned `err` -/
  | returned (err : Option Error)
  deriving DecidableEq, Repr

/-- What a worker goroutine can observe. -/
inductive WorkerEvent
  /-- the case `<-ctx.Done()` of the `select` -/
  | done
  /-- the case `s, ok := <-work` of the `select`, with `ok = true` -/
  | recv (s : GoString)
  /-- the case `s, ok := <-work` of the `select`, with `ok = false` -/
  | closed
  /-- the call `svc.PutObjectAclWithContext(ctx, input)` returned `err` -/
  | mutate (err : Option Error)
  deriving DecidableEq, Repr

/-- One action of the worker loop. -/
def Worker.step : Worker → WorkerEvent → Option Worker
  | .selecting, .done => some (.returned (some .canceled))
  | .selecting, .recv s => some (.calling s)
  | .selecting, .closed => some (.returned none)
  | .calling _, .mutate none => some .selecting
  | .calling _, .mutate (some e) => some (.returned (some e))
  | _, _ => none

/-- The ACL call a worker action makes, if any. -/
def Worker.call : Worker → WorkerEvent → List Event
  | .calling s, .mutate _ => [.mutate s]
  | _, _ => []

/-- The worker loop run on a sequence of observations: the final position and
the ACL calls made. -/
def Worker.run : Worker → List WorkerEvent → Option (Worker × List Event)
  | w, [] => some (w, [])
  | w, ev :: evs =>
    match Worker.step w ev with
    | none => none
    | some w1 =>
      match Worker.run w1 evs with
      | none => none
      | some (w2, calls) => some (w2, Worker.call w ev ++ calls)

/-! ## The producer goroutine (lines 74 to 110) -/

/-- Where the producer goroutine stands. -/
inductive Producer
  /-- line 100: started, the state file not read yet; `pages` is what the listing will yield -/
  | starting (pages : List ListObjectsV2Output)
  /-- in `ListObjectsV2PagesWithContext`, at `p.Next()`; `started` tells whether
  the first page request was made -/
  | listing (started : Bool) (pages : List ListObjectsV2Output)
  /-- blocked in the `select` of line 84 with the decoded key `s` -/
  | sending (s : GoString) (objs : List Object) (pages : List ListObjectsV2Output)
  /-- at the `select` of line 90, after `s` was sent -/
  | ticking (s : GoString) (objs : List Object) (pages : List ListObjectsV2Output)
  /-- the goroutine returned `err`; the deferred `close(work)` ran -/
  | returned (err : Option Error)
  deriving DecidableEq, Repr

/-- The loop of `walkFn` (line 75) over the rest `objs` of the current page,
up to the next point where the goroutine blocks. `ListObjectsV2PagesWithContext`
of the AWS SDK is `for p.Next() { if !fn(p.Page(), !p.HasNextPage()) { break } };
return p.Err()`: when `walkFn` returns `false` the listing returns `nil`, when
it returns `true` the next page is requested. -/
def walkFn : List Object → List ListObjectsV2Output → Producer
  | [], pages => .listing true pages
  | obj :: objs, pages =>
    match obj.Key with
    | none => walkFn objs pages
    | some key =>
      match QueryUnescape key with
      | .error _ => .returned none
      | .ok s => .sending s objs pages

/-- The call `p.Next()` of the AWS SDK in `ListObjectsV2PagesWithContext`, with
`input.StartAfter = startAfter`: after the first request, when no page is
left (`p.HasNextPage()` is false), the listing ends and no request is made;
otherwise a page is requested, and the request fails with `err` or yields the
next page, which `walkFn` walks. A listing that yields no page at all stands
for one whose only page is empty. -/
def next (startAfter : Option GoString) :
    Bool → List ListObjectsV2Output → Option Error → Option (Producer × List Event)
  | true, [], none => some (.returned none, [])
  | true, [], some _ => none
  | _, _, some e => some (.returned (some e), [.list startAfter])
  | _, [], none => some (.returned none, [.list startAfter])
  | _, page :: rest, none => some (walkFn page.Contents rest, [.list startAfter])

/-- The outcome of the `select` of line 90. -/
inductive Tick
  /-- the `default` branch: no tick is pending -/
  | default
  /-- a tick was received; `ok` tells whether `ioutil.WriteFile` succeeded and
  `left` is what the file holds after a failed write -/
  | fired (ok : Bool) (left : Option GoString)
  deriving DecidableEq, Repr

/-! ## The whole of `run` -/

/-- The state shared by the goroutines of `run`. -/
structure State where
  producer : Producer
  workers : List Worker
  /-- the variable `nKeys` of line 69 -/
  nKeys : Nat
  /-- the field `input.StartAfter` of line 107 -/
  startAfter : Option GoString
  /-- what `ioutil.ReadFile(lastKeyFile)` yields: `none` when it fails -/
  file : Option GoString
  /-- whether `ctx.Done()` is closed -/
  cancelled : Bool
  /-- the first error the `errgroup` recorded -/
  err : Option Error
  /-- the events so far, oldest first -/
  trace : List Event
  deriving DecidableEq, Repr

/-- A goroutine started with `group.Go` returned `r`: the first non-nil error
is kept and cancels the context. -/
def State.report (st : State) (r : Option Error) : State :=
  match r, st.err with
  | some e, none => { st with err := some e, cancelled := true }
  | _, _ => st

/-- The value a returned worker hands to the group. -/
def Worker.result : Worker → Option Error
  | .returned r => r
  | _ => none

/-- The value a returned producer hands to the group. -/
def Producer.result : Producer → Option Error
  | .returned r => r
  | _ => none

/-- An action of one goroutine. -/
inductive Label
  /-- producer, lines 102 to 108: the state file is read -/
  | readState
  /-- producer: `p.Next()`; a page request fails with `err` when `err` is not `none` -/
  | fetch (err : Option Error)
  /-- line 87 together with line 57: worker `i` receives the key the producer sends -/
  | send (i : Nat)
  /-- producer, line 90 -/
  | tick (t : Tick)
  /-- producer, line 85 -/
  | producerDone
  /-- worker `i` observes `ev` (other than a receive, which is `send`) -/
  | worker (i : Nat) (ev : WorkerEvent)
  deriving DecidableEq, Repr

/-- Whether worker observation `ev` is possible in state `st`. -/
def State.allows (st : State) : WorkerEvent → Bool
  | .done => st.cancelled
  | .recv _ => false
  | .closed => match st.producer with
    | .returned _ => true
    | _ => false
  | .mutate _ => true

/-- One action of one goroutine; `none` when the action is not possible. -/
def step (st : State) : Label → Option State
  | .readState =>
    match st.producer with
    | .starting pages =>
      some { st with
        producer := .listing false pages
        startAfter := st.file.map TrimSpace
        trace := st.trace ++ [.readFile] }
    | _ => none
  | .fetch err =>
    match st.producer with
    | .listing started pages =>
      match next st.startAfter started pages err with
      | some (p, evs) =>
        some (State.report { st with producer := p, trace := st.trace ++ evs } p.result)
      | none => none
    | _ => none
  | .send i =>
    match st.producer, st.workers[i]? with
    | .sending s objs pages, some w =>
      match Worker.step w (.recv s) with
      | some w1 =>
        some { st with
          producer := .ticking s objs pages
          workers := st.workers.set i w1
          nKeys := st.nKeys + 1
          trace := st.trace ++ [.enqueue s] }
      | none => none
    | _, _ => none
  | .tick t =>
    match st.producer with
    | .ticking s objs pages =>
      let p := walkFn objs pages
      match t with
      | .default => some { st with producer := p }
      | .fired ok left =>
        some { st with
          producer := p
          file := if ok then some s else left
          trace := st.trace ++ [.write s ok] }
    | _ => none
  | .producerDone =>
    match st.producer, st.cancelled with
    | .sending _ _ _, true => some { st with producer := .returned none }
    | _, _ => none
  | .worker i ev =>
    match st.workers[i]?, st.allows ev with
    | some w, true =>
      match Worker.step w ev with
      | some w1 =>
        some (State.report { st with
          workers := st.workers.set i w1
          trace := st.trace ++ Worker.call w ev } w1.result)
      | none => none
    | _, _ => none

/-- Runs a schedule; `none` when one of its actions is not possible. -/
def exec : State → List Label → Option State
  | st, [] => some st
  | st, l :: ls =>
    match step st l with
    | none => none
    | some st1 => exec st1 ls

/-- A goroutine that has returned. -/
def Worker.isReturned : Worker → Bool
  | .returned _ => true
  | _ => false

/-- The producer has returned. -/
def Producer.isReturned : Producer → Bool
  | .returned _ => true
  | _ => false

/-- What `group.Wait()` returns (line 111): the group's first error once every
goroutine has returned; `none` while one of them is still running. -/
def State.wait (st : State) : Option (Option Error) :=
  if st.producer.isReturned && st.workers.all Worker.isReturned then some st.err else none

/-- What `run` finds outside: the outcome of `session.NewSession()`, the
content of the state file and the pages the listing yields. -/
structure World where
  session : Option Error
  file : Option GoString
  pages : List ListObjectsV2Output
  deriving DecidableEq, Repr

/-- The state at line 100, after the ten workers were started (lines 45 to 73). -/
def init (w : World) : State :=
  { producer := .starting w.pages
    workers := List.replicate 10 .selecting
    nKeys := 0
    startAfter := none
    file := w.file
    cancelled := false
    err := none
    trace := [] }

/-- How far `run` got. -/
inductive Run
  /-- returned at line 38 -/
  | rejected (err : Error)
  /-- returned at line 42 -/
  | noSession (err : Error)
  /-- past line 44, with the goroutines in state `st` -/
  | pipeline (st : State)
  deriving DecidableEq, Repr

/-- Function `run` (line 36) under a schedule of its goroutines. -/
def run (bucket lastKeyFile : GoString) (w : World) (sched : List Label) : Option Run :=
  if bucket = [] ∨ lastKeyFile = [] then
    some (.rejected (.errorf "both -bucket and -state should be set"))
  else
    match w.session with
    | some e => some (.noSession e)
    | none => (exec (init w) sched).map .pipeline

/-- The value `run` returns; `none` while it has not returned. -/
def Run.result : Run → Option (Option Error)
  | .rejected e => some (some e)
  | .noSession e => some (some e)
  | .pipeline st => st.wait

/-- The events of a run, oldest first. -/
def Run.trace : Run → List Event
  | .rejected _ => []
  | .noSession _ => [.newSession]
  | .pipeline st => .newSession :: st.trace

/-- The arguments `main` passes to `run` (lines 23 to 30): `autoflags.Parse`
overwrites a field of `args` when its flag is given on the command line. -/
def mainArgs (bucketFlag stateFlag : Option GoString) : GoString × GoString :=
  (bucketFlag.getD [], stateFlag.getD (str "/tmp/fixacl-lastkey.txt"))

/-! ## Notions used to state the properties -/

/-- The listing entries of all pages, in page order and within-page order. -/
def objects (pages : List ListObjectsV2Output) : List Object :=
  pages.flatMap (fun page => page.Contents)

/-- Whether the entry has no key or a key that `url.QueryUnescape` accepts. -/
def decodes (o : Object) : Bool :=
  match o.Key with
  | none => true
  | some key =>
    match QueryUnescape key with
    | .ok _ => true
    | .error _ => false

/-- The decoded keys of the entries, in order; entries without a key (and keys
that do not decode) are skipped. -/
def decodedKeys (objs : List Object) : List GoString :=
  objs.filterMap (fun o => o.Key.bind (fun key => (QueryUnescape key).toOption))

/-- The decoded keys of the entries up to the first key that does not decode. -/
def toEnqueue : List Object → List GoString
  | [] => []
  | obj :: objs =>
    match obj.Key with
    | none => toEnqueue objs
    | some key =>
      match QueryUnescape key with
      | .error _ => []
      | .ok s => s :: toEnqueue objs

/-- The identifiers the producer has still to send when nothing stops it. -/
def pending : Producer → List GoString
  | .starting pages => toEnqueue (objects pages)
  | .listing _ pages => toEnqueue (objects pages)
  | .sending s objs pages => s :: toEnqueue (objs ++ objects pages)
  | .ticking _ objs pages => toEnqueue (objs ++ objects pages)
  | .returned _ => []

/-- The identifier a worker received and has not passed to the ACL call yet. -/
def holds : Worker → List GoString
  | .calling s => [s]
  | _ => []

/-- The identifiers received by the workers and not passed to the ACL call yet. -/
def held (ws : List Worker) : List GoString :=
  ws.flatMap holds

/-- The checkpoint writes with their outcomes, in order. -/
def writes : List Event → List (GoString × Bool)
  | [] => []
  | .write s ok :: es => (s, ok) :: writes es
  | _ :: es => writes es

/-- A label by which the outside world injects no failure: no page request
fails and no ACL call fails. -/
def Label.quiet : Label → Bool
  | .fetch (some _) => false
  | .worker _ (.mutate (some _)) => false
  | _ => true

/-- Two labels that are the same action, or two ticks that were observed
(whatever became of the checkpoint write). -/
def Label.sameButWrite : Label → Label → Bool
  | .tick (.fired _ _), .tick (.fired _ _) => true
  | a, b => decide (a = b)

/-- Two schedules that differ at most in the outcomes of the checkpoint writes. -/
def sameButWrites : List Label → List Label → Bool
  | [], [] => true
  | a :: as, b :: bs => a.sameButWrite b && sameButWrites as bs
  | _, _ => false

/-- The actions a page sequence can still cause. -/
def cost (pages : List ListObjectsV2Output) : Nat :=
  (pages.map (fun page => 3 * page.Contents.length + 1)).sum

/-- A bound on the number of actions the producer can still take. -/
def Producer.fuel : Producer → Nat
  | .starting pages => cost pages + 2
  | .listing _ pages => cost pages + 1
  | .sending _ objs pages => 3 * objs.length + cost pages + 4
  | .ticking _ objs pages => 3 * objs.length + cost pages + 2
  | .returned _ => 0

/-- A bound on the number of actions a worker can take before it receives again. -/
def Worker.fuel : Worker → Nat
  | .selecting => 1
  | .calling _ => 2
  | .returned _ => 0

/-- A bound on the number of actions the goroutines can still take. -/
def State.fuel (st : State) : Nat :=
  st.producer.fuel + (st.workers.map Worker.fuel).sum

/-- The actions of `step`, one constructor for each. -/
inductive Step : State → Label → State → Prop
  | readState (st : State) (pages : List ListObjectsV2Output)
      (hp : st.producer = .starting pages) :
      Step st .readState
        { st with
          producer := .listing false pages
          startAfter := st.file.map TrimSpace
          trace := st.trace ++ [.readFile] }
  | fetch (st : State) (started : Bool) (pages : List ListObjectsV2Output) (err : Option Error)
      (p : Producer) (evs : List Event)
      (hp : st.producer = .listing started pages)
      (hn : next st.startAfter started pages err = some (p, evs)) :
      Step st (.fetch err)
        (State.report { st with producer := p, trace := st.trace ++ evs } p.result)
  | send (st : State) (i : Nat) (s : GoString) (objs : List Object)
      (pages : List ListObjectsV2Output) (w w1 : Worker)
      (hp : st.producer = .sending s objs pages)
      (hw : st.workers[i]? = some w)
      (hs : Worker.step w (.recv s) = some w1) :
      Step st (.send i)
        { st with
          producer := .ticking s objs pages
          workers := st.workers.set i w1
          nKeys := st.nKeys + 1
          trace := st.trace ++ [.enqueue s] }
  | tickDefault (st : State) (s : GoString) (objs : List Object)
      (pages : List ListObjectsV2Output)
      (hp : st.producer = .ticking s objs pages) :
      Step st (.tick .default) { st with producer := walkFn objs pages }
  | tickFired (st : State) (s : GoString) (objs : List Object)
      (pages : List ListObjectsV2Output) (ok : Bool) (left : Option GoString)
      (hp : st.producer = .ticking s objs pages) :
      Step st (.tick (.fired ok left))
        { st with
          producer := walkFn objs pages
          file := if ok then some s else left
          trace := st.trace ++ [.write s ok] }
  | producerDone (st : State) (s : GoString) (objs : List Object)
      (pages : List ListObjectsV2Output)
      (hp : st.producer = .sending s objs pages)
      (hc : st.cancelled = true) :
      Step st .producerDone { st with producer := .returned none }
  | worker (st : State) (i : Nat) (ev : WorkerEvent) (w w1 : Worker)
      (hw : st.workers[i]? = some w)
      (ha : st.allows ev = true)
      (hs : Worker.step w ev = some w1) :
      Step st (.worker i ev)
        (State.report { st with
          workers := st.workers.set i w1
          trace := st.trace ++ Worker.call w ev } w1.result)

/-- What keeps the goroutines from blocking for ever: there are ten workers,
the context is cancelled exactly when the group holds an error, and a worker
returns only after cancellation or after the producer returned. -/
structure Live (st : State) : Prop where
  size : st.workers.length = 10
  cancel : st.cancelled = st.err.isSome
  gone : ∀ x ∈ st.workers, x.isReturned = true →
    st.cancelled = true ∨ st.producer.isReturned = true

/-- What holds as long as nothing fails outside: the context is not cancelled,
the group holds no error, no goroutine returned an error, and the producer
skipped nothing. -/
structure Calm (w : World) (st : State) : Prop where
  running : st.cancelled = false
  clean : st.err = none
  producer : st.producer.result = none
  workers : ∀ x ∈ st.workers, x.result = none
  ahead : enqueued st.trace ++ pending st.producer = toEnqueue (objects w.pages)

/-- How checkpoint writes follow the sends: at line 90 the key in hand is the
last one sent, every write names the last key sent before it, and after a
write nothing is written again before the next send. -/
structure Marked (st : State) : Prop where
  last : ∀ s objs pages, st.producer = .ticking s objs pages →
    (enqueued st.trace).getLast? = some s
  wrote : ∀ pre s ok post, st.trace = pre ++ Event.write s ok :: post →
    (enqueued pre).getLast? = some s
  once : ∀ pre s ok post, st.trace = pre ++ Event.write s ok :: post → enqueued post = [] →
    writes post = [] ∧ ∀ s2 objs pages, st.producer ≠ .ticking s2 objs pages

/-- How the listing starts: the state file is untouched until it is read, and
every page request carries the trimmed content it had at startup. -/
structure Started (w : World) (st : State) : Prop where
  fresh : ∀ pages, st.producer = .starting pages → st.file = w.file
  start : (∀ pages, st.producer ≠ .starting pages) → st.startAfter = w.file.map TrimSpace
  lists : ∀ sa, Event.list sa ∈ st.trace → sa = w.file.map TrimSpace

/-- What the state file holds: the key of the last write when that write
succeeded, and its content at startup when nothing was written. -/
structure Kept (w : World) (st : State) : Prop where
  file : ∀ s, (writes st.trace).getLast? = some (s, true) → st.file = some s
  unchanged : writes st.trace = [] → st.file = w.file

/-- Two states that differ at most in what the checkpoint writes did: in the
content of the state file once it was read, and in the writes of the trace. -/
structure Alike (a b : State) : Prop where
  producer : a.producer = b.producer
  workers : a.workers = b.workers
  nKeys : a.nKeys = b.nKeys
  startAfter : a.startAfter = b.startAfter
  cancelled : a.cancelled = b.cancelled
  err : a.err = b.err
  enqueued : enqueued a.trace = enqueued b.trace
  mutated : mutated a.trace = mutated b.trace
  file : ∀ pages, a.producer = .starting pages → a.file = b.file

/-- The observations of a worker that receives the keys `ks` one after the
other and whose ACL calls all succeed. -/
def served (ks : List GoString) : List WorkerEvent :=
  ks.flatMap (fun s => [.recv s, .mutate none])

/-- The keys a worker received, in order. -/
def received : List WorkerEvent → List GoString
  | [] => []
  | .recv s :: evs => s :: received evs
  | _ :: evs => received evs

/-- The listing of the example: the keys a and b on the first page, the key c
on the second page; `file` is the content of the state file at startup. -/
def abc (file : Option GoString) : World :=
  { session := none
    file := file
    pages := [⟨[⟨some (str "a")⟩, ⟨some (str "b")⟩]⟩, ⟨[⟨some (str "c")⟩]⟩] }

/-- All ten workers find the channel closed. -/
def closeAll : List Label :=
  [.worker 0 .closed, .worker 1 .closed, .worker 2 .closed, .worker 3 .closed,
   .worker 4 .closed, .worker 5 .closed, .worker 6 .closed, .worker 7 .closed,
   .worker 8 .closed, .worker 9 .closed]

/-- A run over the example listing in which the ticker never fires: worker 0
takes a, worker 1 takes b and c, and b is passed to the ACL call before a. -/
def noTick : List Label :=
  [.readState, .fetch none, .send 0, .tick .default, .send 1, .tick .default,
   .worker 1 (.mutate none), .fetch none, .send 1, .tick .default,
   .worker 0 (.mutate none), .worker 1 (.mutate none), .fetch none] ++ closeAll

/-- The same run with a tick after b whose write fails and a tick after c whose
write succeeds. -/
def twoTicks : List Label :=
  [.readState, .fetch none, .send 0, .tick .default, .send 1, .tick (.fired false none),
   .worker 1 (.mutate none), .fetch none, .send 1, .tick (.fired true none),
   .worker 0 (.mutate none), .worker 1 (.mutate none), .fetch none] ++ closeAll

/-- The same run with a tick after b whose write succeeds and a tick after c
whose write fails and leaves the file empty. -/
def lastWriteFails : List Label :=
  [.readState, .fetch none, .send 0, .tick .default, .send 1, .tick (.fired true none),
   .worker 1 (.mutate none), .fetch none, .send 1, .tick (.fired false (some [])),
   .worker 0 (.mutate none), .worker 1 (.mutate none), .fetch none] ++ closeAll

/-- The state a schedule leads to from the start of the pipeline (the start
itself when the schedule is not possible). -/
def reach (w : World) (sched : List Label) : State :=
  (exec (init w) sched).getD (init w)

/-- A listing of one page: the key a, then a key that does not decode, then b. -/
def undecodable : World :=
  { session := none
    file := none
    pages := [⟨[⟨some (str "a")⟩, ⟨some (str "%zz")⟩, ⟨some (str "b")⟩]⟩] }

/-- A run over `undecodable`: a is sent to worker 0 and passed to the ACL
call, the listing ends at the second key, the workers find the channel closed. -/
def pastBadKey : List Label :=
  [.readState, .fetch none, .send 0, .tick .default, .worker 0 (.mutate none)] ++ closeAll

/-- A listing of one page, in the order of the listing service (byte order of
the keys): the raw key `+b`, which decodes to a blank followed by `b`, then
`a`, then `b`. -/
def spaced : World :=
  { session := none
    file := none
    pages := [⟨[⟨some (str "+b")⟩, ⟨some (str "a")⟩, ⟨some (str "b")⟩]⟩] }

/-- A run over `spaced` up to a tick right after the first key was sent, with
a write that succeeds. -/
def checkpointed : List Label :=
  [.readState, .fetch none, .send 0, .tick (.fired true none)]

/-- A startup that finds `file` in the state file and an empty bucket listing. -/
def resumed (file : Option GoString) : World :=
  { session := none
    file := file
    pages := [] }

/-! ## Lists of events -/

theorem enqueued_append (a b : List Event) : enqueued (a ++ b) = enqueued a ++ enqueued b := by
  induction a with
  | nil => rfl
  | cons e es ih => cases e <;> simp [enqueued, ih]

theorem mutated_append (a b : List Event) : mutated (a ++ b) = mutated a ++ mutated b := by
  induction a with
  | nil => rfl
  | cons e es ih => cases e <;> simp [mutated, ih]

theorem written_append (a b : List Event) : written (a ++ b) = written a ++ written b := by
  induction a with
  | nil => rfl
  | cons e es ih => cases e <;> simp [written, ih]

theorem writes_append (a b : List Event) : writes (a ++ b) = writes a ++ writes b := by
  induction a with
  | nil => rfl
  | cons e es ih => cases e <;> simp [writes, ih]

theorem written_eq_map (a : List Event) : written a = (writes a).map Prod.fst := by
  induction a with
  | nil => rfl
  | cons e es ih => cases e <;> simp [writes, written, ih]

theorem enqueued_call (w : Worker) (ev : WorkerEvent) : enqueued (Worker.call w ev) = [] := by
  cases w <;> cases ev <;> rfl

theorem writes_call (w : Worker) (ev : WorkerEvent) : writes (Worker.call w ev) = [] := by
  cases w <;> cases ev <;> rfl

theorem enqueued_next {sa : Option GoString} {b : Bool} {pages : List ListObjectsV2Output}
    {err : Option Error} {p : Producer} {evs : List Event}
    (h : next sa b pages err = some (p, evs)) :
    enqueued evs = [] ∧ mutated evs = [] ∧ writes evs = [] ∧ ∀ e ∈ evs, e = Event.list sa := by
  cases b <;> cases pages <;> cases err <;> simp [next] at h <;> obtain ⟨-, rfl⟩ := h <;>
    simp [enqueued, mutated, writes]

/-! ## Schedules -/

theorem exec_append (st : State) (a b : List Label) :
    exec st (a ++ b) = (exec st a).bind (fun st1 => exec st1 b) := by
  induction a generalizing st with
  | nil => rfl
  | cons l ls ih =>
    simp only [List.cons_append, exec]
    cases step st l with
    | none => rfl
    | some st1 => exact ih st1

/-- A property of states that holds at the start and is kept by every action
holds after every schedule. -/
theorem exec_induction (P : State → Prop) (hstep : ∀ st l st1, P st → step st l = some st1 → P st1)
    (st : State) (sched : List Label) (st1 : State) (h0 : P st) (h : exec st sched = some st1) :
    P st1 := by
  induction sched generalizing st with
  | nil => simp [exec] at h; exact h ▸ h0
  | cons l ls ih =>
    simp only [exec] at h
    cases hs : step st l with
    | none => simp [hs] at h
    | some st2 =>
      rw [hs] at h
      exact ih st2 (hstep st l st2 h0 hs) h

theorem Step.of_step {st : State} {l : Label} {st1 : State} (h : step st l = some st1) :
    Step st l st1 := by
  cases l with
  | readState =>
    simp only [step] at h
    split at h
    · next pages hp => cases h; exact Step.readState st pages hp
    · cases h
  | fetch err =>
    simp only [step] at h
    split at h
    · next started pages hp =>
      split at h
      · next p evs hn => cases h; exact Step.fetch st started pages err p evs hp hn
      · cases h
    · cases h
  | send i =>
    simp only [step] at h
    split at h
    · next s objs pages w hp hw =>
      split at h
      · next w1 hs => cases h; exact Step.send st i s objs pages w w1 hp hw hs
      · cases h
    · cases h
  | tick t =>
    simp only [step] at h
    split at h
    · next s objs pages hp =>
      cases t with
      | default => cases h; exact Step.tickDefault st s objs pages hp
      | fired ok left => cases h; exact Step.tickFired st s objs pages ok left hp
    · cases h
  | producerDone =>
    simp only [step] at h
    split at h
    · next s objs pages hp hc => cases h; exact Step.producerDone st s objs pages hp hc
    · cases h
  | worker i ev =>
    simp only [step] at h
    split at h
    · next w hw ha =>
      split at h
      · next w1 hs => cases h; exact Step.worker st i ev w w1 hw ha hs
      · cases h
    · cases h

theorem Step.to_step {st : State} {l : Label} {st1 : State} (h : Step st l st1) :
    step st l = some st1 := by
  cases h <;> simp [step, *]

/-! ## The group -/

@[simp]
theorem report_producer (st : State) (r : Option Error) :
    (State.report st r).producer = st.producer := by
  unfold State.report; split <;> rfl

@[simp]
theorem report_workers (st : State) (r : Option Error) :
    (State.report st r).workers = st.workers := by
  unfold State.report; split <;> rfl

@[simp]
theorem report_nKeys (st : State) (r : Option Error) :
    (State.report st r).nKeys = st.nKeys := by
  unfold State.report; split <;> rfl

@[simp]
theorem report_startAfter (st : State) (r : Option Error) :
    (State.report st r).startAfter = st.startAfter := by
  unfold State.report; split <;> rfl

@[simp]
theorem report_file (st : State) (r : Option Error) :
    (State.report st r).file = st.file := by
  unfold State.report; split <;> rfl

@[simp]
theorem report_trace (st : State) (r : Option Error) :
    (State.report st r).trace = st.trace := by
  unfold State.report; split <;> rfl

@[simp]
theorem report_none (st : State) : State.report st none = st := by
  unfold State.report; split <;> simp_all

theorem report_cancelled (st : State) (r : Option Error) :
    (State.report st r).cancelled = (st.cancelled || (r.isSome && st.err.isNone)) := by
  cases r with
  | none => simp
  | some e =>
    cases he : st.err with
    | none => simp [State.report, he]
    | some e1 => simp [State.report, he]

theorem report_err (st : State) (r : Option Error) :
    (State.report st r).err = (if st.err.isSome then st.err else r) := by
  cases r with
  | none => cases he : st.err <;> simp [he]
  | some e =>
    cases he : st.err with
    | none => simp [State.report, he]
    | some e1 => simp [State.report, he]

/-! ## The processed count -/

/-- The variable `nKeys` counts the sends that went through. -/
theorem count_step {st st1 : State} {l : Label} (h : Step st l st1)
    (hc : st.nKeys = (enqueued st.trace).length) :
    st1.nKeys = (enqueued st1.trace).length := by
  cases h with
  | readState pages hp => simpa [enqueued_append, enqueued] using hc
  | fetch started pages err p evs hp hn =>
    simpa [enqueued_append, (enqueued_next hn).1] using hc
  | send i s objs pages w w1 hp hw hs => simp [enqueued_append, enqueued, hc]
  | tickDefault s objs pages hp => simpa using hc
  | tickFired s objs pages ok left hp => simpa [enqueued_append, enqueued] using hc
  | producerDone s objs pages hp hcn => simpa using hc
  | worker i ev w w1 hw ha hs => simpa [enqueued_append, enqueued_call] using hc

theorem count_exec (w : World) (sched : List Label) (st : State)
    (h : exec (init w) sched = some st) : st.nKeys = (enqueued st.trace).length := by
  refine exec_induction (fun st => st.nKeys = (enqueued st.trace).length) ?_ (init w) sched st rfl h
  intro st l st1 hc hs
  exact count_step (Step.of_step hs) hc

/-! ## No goroutine blocks for ever -/

theorem Worker.step_cases {w w1 : Worker} {ev : WorkerEvent} (h : Worker.step w ev = some w1) :
    (w = .selecting ∧ ev = .done ∧ w1 = .returned (some .canceled)) ∨
    (∃ s, w = .selecting ∧ ev = .recv s ∧ w1 = .calling s) ∨
    (w = .selecting ∧ ev = .closed ∧ w1 = .returned none) ∨
    (∃ s, w = .calling s ∧ ev = .mutate none ∧ w1 = .selecting) ∨
    (∃ s e, w = .calling s ∧ ev = .mutate (some e) ∧ w1 = .returned (some e)) := by
  cases w with
  | selecting => cases ev <;> simp [Worker.step] at h <;> simp [h.symm]
  | calling s =>
    cases ev with
    | mutate err => cases err <;> simp [Worker.step] at h <;> simp [h.symm]
    | _ => simp [Worker.step] at h
  | returned r => simp [Worker.step] at h

theorem live_init (w : World) : Live (init w) := by
  refine ⟨by simp [init], rfl, ?_⟩
  intro x hx hr
  simp [init] at hx
  subst hx
  simp [Worker.isReturned] at hr

theorem report_cancel {st : State} (r : Option Error) (hc : st.cancelled = st.err.isSome) :
    (State.report st r).cancelled = (State.report st r).err.isSome := by
  rw [report_cancelled, report_err, hc]
  cases st.err <;> cases r <;> simp

theorem report_mono {st : State} (r : Option Error) (hc : st.cancelled = true) :
    (State.report st r).cancelled = true := by
  rw [report_cancelled, hc]; rfl

theorem live_step {st st1 : State} {l : Label} (h : Step st l st1) (hl : Live st) : Live st1 := by
  obtain ⟨hsize, hcancel, hgone⟩ := hl
  cases h with
  | readState pages hp =>
    refine ⟨hsize, hcancel, ?_⟩
    intro x hx hr
    rcases hgone x hx hr with hc | hc
    · exact Or.inl hc
    · simp [hp, Producer.isReturned] at hc
  | fetch started pages err p evs hp hn =>
    refine ⟨by simpa using hsize, report_cancel _ hcancel, ?_⟩
    intro x hx hr
    simp only [report_workers] at hx
    rcases hgone x hx hr with hc | hc
    · exact Or.inl (report_mono _ hc)
    · simp [hp, Producer.isReturned] at hc
  | send i s objs pages w w1 hp hw hs =>
    refine ⟨by simpa using hsize, hcancel, ?_⟩
    intro x hx hr
    rcases List.mem_or_eq_of_mem_set hx with hx | hx
    · rcases hgone x hx hr with hc | hc
      · exact Or.inl hc
      · simp [hp, Producer.isReturned] at hc
    · subst hx
      rcases Worker.step_cases hs with ⟨rfl, h2, rfl⟩ | ⟨s, rfl, h2, rfl⟩ | ⟨rfl, h2, rfl⟩ |
        ⟨s, rfl, h2, rfl⟩ | ⟨s, e, rfl, h2, rfl⟩ <;> simp at h2
      simp [Worker.isReturned] at hr
  | tickDefault s objs pages hp =>
    refine ⟨hsize, hcancel, ?_⟩
    intro x hx hr
    rcases hgone x hx hr with hc | hc
    · exact Or.inl hc
    · simp [hp, Producer.isReturned] at hc
  | tickFired s objs pages ok left hp =>
    refine ⟨hsize, hcancel, ?_⟩
    intro x hx hr
    rcases hgone x hx hr with hc | hc
    · exact Or.inl hc
    · simp [hp, Producer.isReturned] at hc
  | producerDone s objs pages hp hc =>
    refine ⟨hsize, hcancel, ?_⟩
    intro x hx hr
    exact Or.inl hc
  | worker i ev w w1 hw ha hs =>
    refine ⟨by simpa using hsize, report_cancel _ hcancel, ?_⟩
    intro x hx hr
    simp only [report_workers] at hx
    simp only [report_producer]
    rcases List.mem_or_eq_of_mem_set hx with hx | hx
    · rcases hgone x hx hr with hc | hc
      · exact Or.inl (report_mono _ hc)
      · exact Or.inr hc
    · subst hx
      rcases Worker.step_cases hs with ⟨rfl, rfl, rfl⟩ | ⟨s, rfl, rfl, rfl⟩ | ⟨rfl, rfl, rfl⟩ |
        ⟨s, rfl, rfl, rfl⟩ | ⟨s, e, rfl, rfl, rfl⟩
      · exact Or.inl (report_mono _ (by simpa [State.allows] using ha))
      · simp [State.allows] at ha
      · right
        simp only [State.allows] at ha
        cases hp : st.producer <;> simp [hp] at ha
        simp [Producer.isReturned]
      · simp [Worker.isReturned] at hr
      · left
        rw [report_cancelled]
        simp only [Worker.result]
        cases he : st.err with
        | none => simp
        | some e1 => simp [hcancel, he]

theorem live_exec (w : World) (sched : List Label) (st : State)
    (h : exec (init w) sched = some st) : Live st :=
  exec_induction Live (fun _ _ _ hl hs => live_step (Step.of_step hs) hl) (init w) sched st
    (live_init w) h

theorem exists_running {ws : List Worker} (h : ws.all Worker.isReturned = false) :
    ∃ i : Nat, ws[i]? = some Worker.selecting ∨ ∃ s, ws[i]? = some (Worker.calling s) := by
  have h2 : ∃ x ∈ ws, x.isReturned = false := by
    by_contra hne
    push_neg at hne
    have : ws.all Worker.isReturned = true := by
      rw [List.all_eq_true]
      intro x hx
      simpa using hne x hx
    rw [this] at h
    cases h
  obtain ⟨x, hx, hr⟩ := h2
  obtain ⟨i, hi⟩ := List.getElem?_of_mem hx
  refine ⟨i, ?_⟩
  cases x with
  | selecting => exact Or.inl hi
  | calling s => exact Or.inr ⟨s, hi⟩
  | returned r => simp [Worker.isReturned] at hr

/-- While `group.Wait()` has not returned, some goroutine can act without any
failure coming from outside. -/
theorem progress {st : State} (hl : Live st) (hw : st.wait = none) :
    ∃ l st1, l.quiet = true ∧ step st l = some st1 := by
  cases hp : st.producer with
  | starting pages => exact ⟨.readState, _, rfl, Step.to_step (Step.readState st pages hp)⟩
  | listing started pages =>
    have hn : ∃ p evs, next st.startAfter started pages none = some (p, evs) := by
      cases started <;> cases pages <;> simp [next]
    obtain ⟨p, evs, hn⟩ := hn
    exact ⟨.fetch none, _, rfl, Step.to_step (Step.fetch st started pages none p evs hp hn)⟩
  | ticking s objs pages =>
    exact ⟨.tick .default, _, rfl, Step.to_step (Step.tickDefault st s objs pages hp)⟩
  | sending s objs pages =>
    cases hall : st.workers.all Worker.isReturned with
    | false =>
      obtain ⟨i, hi | ⟨s1, hi⟩⟩ := exists_running hall
      · exact ⟨.send i, _, rfl,
          Step.to_step (Step.send st i s objs pages .selecting (.calling s) hp hi rfl)⟩
      · exact ⟨.worker i (.mutate none), _, rfl,
          Step.to_step (Step.worker st i (.mutate none) (.calling s1) .selecting hi rfl rfl)⟩
    | true =>
      have hne : st.workers ≠ [] := by
        intro h0
        have := hl.size
        rw [h0] at this
        cases this
      obtain ⟨x, xs, hxs⟩ := List.exists_cons_of_ne_nil hne
      have hx : x ∈ st.workers := by rw [hxs]; exact List.mem_cons_self x xs
      have hr : x.isReturned = true := (List.all_eq_true.mp hall) x hx
      rcases hl.gone x hx hr with hc | hc
      · exact ⟨.producerDone, _, rfl, Step.to_step (Step.producerDone st s objs pages hp hc)⟩
      · simp [hp, Producer.isReturned] at hc
  | returned r =>
    have hall : st.workers.all Worker.isReturned = false := by
      cases h : st.workers.all Worker.isReturned with
      | false => rfl
      | true => simp [State.wait, hp, Producer.isReturned, h] at hw
    have ha : st.allows .closed = true := by simp [State.allows, hp]
    obtain ⟨i, hi | ⟨s1, hi⟩⟩ := exists_running hall
    · exact ⟨.worker i .closed, _, rfl,
        Step.to_step (Step.worker st i .closed .selecting (.returned none) hi ha rfl)⟩
    · exact ⟨.worker i (.mutate none), _, rfl,
        Step.to_step (Step.worker st i (.mutate none) (.calling s1) .selecting hi rfl rfl)⟩

/-! ## Every schedule is finite -/

theorem walkFn_fuel (objs : List Object) (pages : List ListObjectsV2Output) :
    (walkFn objs pages).fuel ≤ 3 * objs.length + cost pages + 1 := by
  induction objs with
  | nil => simp [walkFn, Producer.fuel]
  | cons obj objs ih =>
    simp only [walkFn]
    split
    · simp only [List.length_cons]; omega
    · split
      · simp [Producer.fuel]
      · simp only [Producer.fuel, List.length_cons]; omega

theorem fuel_set {ws : List Worker} {i : Nat} {w : Worker} (w1 : Worker) (h : ws[i]? = some w) :
    ((ws.set i w1).map Worker.fuel).sum + w.fuel = (ws.map Worker.fuel).sum + w1.fuel := by
  induction ws generalizing i with
  | nil => simp at h
  | cons a t ih =>
    cases i with
    | zero =>
      simp at h
      subst h
      simp only [List.set_cons_zero, List.map_cons, List.sum_cons]
      omega
    | succ j =>
      simp at h
      have := ih h
      simp only [List.set_cons_succ, List.map_cons, List.sum_cons]
      omega

theorem fuel_step {st st1 : State} {l : Label} (h : Step st l st1) : st1.fuel < st.fuel := by
  cases h with
  | readState pages hp => simp [State.fuel, hp, Producer.fuel]
  | fetch started pages err p evs hp hn =>
    have h0 : st.fuel = cost pages + 1 + (st.workers.map Worker.fuel).sum := by
      simp [State.fuel, hp, Producer.fuel]
    have h1 : p.fuel < cost pages + 1 := by
      cases started <;> cases pages <;> cases err <;> simp [next] at hn <;>
        obtain ⟨rfl, -⟩ := hn <;>
        first
        | exact Nat.succ_pos _
        | exact Nat.lt_of_le_of_lt (walkFn_fuel _ _)
            (by simp only [cost, List.map_cons, List.sum_cons]; omega)
    simp only [State.fuel, report_producer, report_workers] at h0 ⊢
    omega
  | send i s objs pages w w1 hp hw hs =>
    have h0 : st.fuel = 3 * objs.length + cost pages + 4 + (st.workers.map Worker.fuel).sum := by
      simp [State.fuel, hp, Producer.fuel]
    have h1 := fuel_set w1 hw
    have h2 : w1.fuel ≤ w.fuel + 1 := by
      rcases Worker.step_cases hs with ⟨rfl, h2, rfl⟩ | ⟨s, rfl, h2, rfl⟩ | ⟨rfl, h2, rfl⟩ |
        ⟨s, rfl, h2, rfl⟩ | ⟨s, e, rfl, h2, rfl⟩ <;> simp [Worker.fuel]
    simp only [State.fuel, Producer.fuel] at h0 ⊢
    omega
  | tickDefault s objs pages hp =>
    have h0 : st.fuel = 3 * objs.length + cost pages + 2 + (st.workers.map Worker.fuel).sum := by
      simp [State.fuel, hp, Producer.fuel]
    have := walkFn_fuel objs pages
    simp only [State.fuel] at h0 ⊢
    omega
  | tickFired s objs pages ok left hp =>
    have h0 : st.fuel = 3 * objs.length + cost pages + 2 + (st.workers.map Worker.fuel).sum := by
      simp [State.fuel, hp, Producer.fuel]
    have := walkFn_fuel objs pages
    simp only [State.fuel] at h0 ⊢
    omega
  | producerDone s objs pages hp hc => simp [State.fuel, hp, Producer.fuel]
  | worker i ev w w1 hw ha hs =>
    have h1 := fuel_set w1 hw
    have h2 : w1.fuel < w.fuel := by
      rcases Worker.step_cases hs with ⟨rfl, rfl, rfl⟩ | ⟨s, rfl, rfl, rfl⟩ | ⟨rfl, rfl, rfl⟩ |
        ⟨s, rfl, rfl, rfl⟩ | ⟨s, e, rfl, rfl, rfl⟩ <;> simp [Worker.fuel]
      simp [State.allows] at ha
    simp only [State.fuel, report_producer, report_workers]
    omega

/-- A schedule is no longer than the fuel of the state it starts from. -/
theorem exec_fuel (st : State) (sched : List Label) (st1 : State)
    (h : exec st sched = some st1) : sched.length + st1.fuel ≤ st.fuel := by
  induction sched generalizing st with
  | nil => simp [exec] at h; subst h; simp
  | cons l ls ih =>
    simp only [exec] at h
    cases hs : step st l with
    | none => simp [hs] at h
    | some st2 =>
      rw [hs] at h
      have h1 := ih st2 h
      have h2 := fuel_step (Step.of_step hs)
      simp only [List.length_cons]
      omega

/-- From every state of a run some schedule without outside failure leads to
the return of `group.Wait()`. -/
theorem finish (n : Nat) (st : State) (hl : Live st) (hn : st.fuel ≤ n) :
    ∃ sched st1, (∀ l ∈ sched, Label.quiet l = true) ∧ exec st sched = some st1 ∧
      st1.wait ≠ none := by
  induction n generalizing st with
  | zero =>
    cases hw : st.wait with
    | some r => exact ⟨[], st, by simp, rfl, by simp [hw]⟩
    | none =>
      obtain ⟨l, st1, -, hs⟩ := progress hl hw
      have := fuel_step (Step.of_step hs)
      omega
  | succ n ih =>
    cases hw : st.wait with
    | some r => exact ⟨[], st, by simp, rfl, by simp [hw]⟩
    | none =>
      obtain ⟨l, st1, hq, hs⟩ := progress hl hw
      have hf := fuel_step (Step.of_step hs)
      obtain ⟨sched, st2, hq2, he, hw2⟩ := ih st1 (live_step (Step.of_step hs) hl) (by omega)
      refine ⟨l :: sched, st2, ?_, ?_, hw2⟩
      · intro l1 hl1
        rcases List.mem_cons.mp hl1 with rfl | h1
        · exact hq
        · exact hq2 l1 h1
      · simp [exec, hs, he]

/-! ## What the producer sends -/

theorem objects_cons (page : ListObjectsV2Output) (rest : List ListObjectsV2Output) :
    objects (page :: rest) = page.Contents ++ objects rest := by
  simp [objects]

@[simp]
theorem pending_starting (pages : List ListObjectsV2Output) :
    pending (.starting pages) = toEnqueue (objects pages) := rfl

@[simp]
theorem pending_listing (b : Bool) (pages : List ListObjectsV2Output) :
    pending (.listing b pages) = toEnqueue (objects pages) := rfl

@[simp]
theorem pending_sending (s : GoString) (objs : List Object) (pages : List ListObjectsV2Output) :
    pending (.sending s objs pages) = s :: toEnqueue (objs ++ objects pages) := rfl

@[simp]
theorem pending_ticking (s : GoString) (objs : List Object) (pages : List ListObjectsV2Output) :
    pending (.ticking s objs pages) = toEnqueue (objs ++ objects pages) := rfl

@[simp]
theorem pending_returned (r : Option Error) : pending (.returned r) = [] := rfl

@[simp]
theorem result_returned (r : Option Error) : (Producer.returned r).result = r := rfl

@[simp]
theorem objects_nil : objects [] = [] := rfl

@[simp]
theorem toEnqueue_nil : toEnqueue [] = [] := rfl

theorem pending_walkFn (objs : List Object) (pages : List ListObjectsV2Output) :
    pending (walkFn objs pages) = toEnqueue (objs ++ objects pages) := by
  induction objs with
  | nil => simp [walkFn]
  | cons obj objs ih =>
    simp only [walkFn, List.cons_append, toEnqueue]
    split
    · exact ih
    · split
      · rfl
      · rfl

theorem result_walkFn (objs : List Object) (pages : List ListObjectsV2Output) :
    (walkFn objs pages).result = none := by
  induction objs with
  | nil => rfl
  | cons obj objs ih =>
    simp only [walkFn]
    split
    · exact ih
    · split <;> rfl

theorem next_quiet {sa : Option GoString} {b : Bool} {pages : List ListObjectsV2Output}
    {p : Producer} {evs : List Event} (h : next sa b pages none = some (p, evs)) :
    pending p = toEnqueue (objects pages) ∧ p.result = none := by
  cases b <;> cases pages <;> simp [next] at h <;> obtain ⟨rfl, -⟩ := h <;>
    simp [objects_cons, pending_walkFn, result_walkFn]

theorem next_ahead {sa : Option GoString} {b : Bool} {pages : List ListObjectsV2Output}
    {err : Option Error} {p : Producer} {evs : List Event}
    (h : next sa b pages err = some (p, evs)) :
    ∃ t, pending p ++ t = toEnqueue (objects pages) := by
  cases err with
  | none => exact ⟨[], by simp [(next_quiet h).1]⟩
  | some e =>
    cases b <;> cases pages <;> simp [next] at h <;> obtain ⟨rfl, -⟩ := h <;>
      exact ⟨_, List.nil_append _⟩

theorem calm_init (w : World) : Calm w (init w) := by
  refine ⟨rfl, rfl, rfl, ?_, by simp [init, enqueued]⟩
  intro x hx
  simp [init] at hx
  subst hx
  rfl

theorem calm_step {w : World} {st st1 : State} {l : Label} (h : Step st l st1)
    (hq : l.quiet = true) (hc : Calm w st) : Calm w st1 := by
  obtain ⟨hrun, hclean, hprod, hwork, hahead⟩ := hc
  cases h with
  | readState pages hp =>
    refine ⟨hrun, hclean, rfl, hwork, ?_⟩
    simpa [enqueued_append, enqueued, hp] using hahead
  | fetch started pages err p evs hp hn =>
    cases err with
    | some e => simp [Label.quiet] at hq
    | none =>
      obtain ⟨h1, h2⟩ := next_quiet hn
      rw [h2, report_none]
      refine ⟨hrun, hclean, h2, hwork, ?_⟩
      simpa [enqueued_append, (enqueued_next hn).1, hp, h1] using hahead
  | send i s objs pages w0 w1 hp hw hs =>
    refine ⟨hrun, hclean, rfl, ?_, ?_⟩
    · intro x hx
      rcases List.mem_or_eq_of_mem_set hx with hx | hx
      · exact hwork x hx
      · subst hx
        rcases Worker.step_cases hs with ⟨rfl, h2, rfl⟩ | ⟨s, rfl, h2, rfl⟩ | ⟨rfl, h2, rfl⟩ |
          ⟨s, rfl, h2, rfl⟩ | ⟨s, e, rfl, h2, rfl⟩ <;> simp at h2
        rfl
    · simpa [enqueued_append, enqueued, hp] using hahead
  | tickDefault s objs pages hp =>
    refine ⟨hrun, hclean, result_walkFn _ _, hwork, ?_⟩
    simpa [hp, pending_walkFn] using hahead
  | tickFired s objs pages ok left hp =>
    refine ⟨hrun, hclean, result_walkFn _ _, hwork, ?_⟩
    simpa [enqueued_append, enqueued, hp, pending_walkFn] using hahead
  | producerDone s objs pages hp hcn => rw [hrun] at hcn; cases hcn
  | worker i ev w0 w1 hw ha hs =>
    have h1 : w1.result = none := by
      rcases Worker.step_cases hs with ⟨rfl, rfl, rfl⟩ | ⟨s, rfl, rfl, rfl⟩ | ⟨rfl, rfl, rfl⟩ |
        ⟨s, rfl, rfl, rfl⟩ | ⟨s, e, rfl, rfl, rfl⟩
      · simp [State.allows, hrun] at ha
      · rfl
      · rfl
      · rfl
      · simp [Label.quiet] at hq
    rw [h1, report_none]
    refine ⟨hrun, hclean, hprod, ?_, ?_⟩
    · intro x hx
      rcases List.mem_or_eq_of_mem_set hx with hx | hx
      · exact hwork x hx
      · subst hx
        exact h1
    · simpa [enqueued_append, enqueued_call] using hahead

/-- A schedule without outside failure keeps `Calm`. -/
theorem calm_exec (w : World) (sched : List Label) (st : State)
    (hq : ∀ l ∈ sched, Label.quiet l = true) (h : exec (init w) sched = some st) :
    Calm w st := by
  have key : ∀ (sched : List Label) (st0 : State), Calm w st0 →
      (∀ l ∈ sched, Label.quiet l = true) → exec st0 sched = some st → Calm w st := by
    intro sched
    induction sched with
    | nil =>
      intro st0 h0 _ he
      simp [exec] at he
      exact he ▸ h0
    | cons l ls ih =>
      intro st0 h0 hq he
      simp only [exec] at he
      cases hs : step st0 l with
      | none => simp [hs] at he
      | some st2 =>
        rw [hs] at he
        exact ih st2 (calm_step (Step.of_step hs) (hq l (List.mem_cons_self l ls)) h0)
          (fun l1 h1 => hq l1 (List.mem_cons_of_mem l h1)) he
  exact key sched (init w) (calm_init w) hq h

/-- Without outside failure `group.Wait()`, once it returns, returns `nil`, and
by then the producer has sent everything up to the first key that does not
decode. -/
theorem calm_wait {w : World} {st : State} (hc : Calm w st) (hw : st.wait ≠ none) :
    st.wait = some none ∧ enqueued st.trace = toEnqueue (objects w.pages) := by
  have h1 : (st.producer.isReturned && st.workers.all Worker.isReturned) = true := by
    by_contra hne
    simp only [Bool.not_eq_true] at hne
    exact hw (by simp [State.wait, hne])
  refine ⟨by simp [State.wait, h1, hc.clean], ?_⟩
  have h2 : st.producer.isReturned = true := by
    simp only [Bool.and_eq_true] at h1
    exact h1.1
  have h3 := hc.ahead
  cases hp : st.producer with
  | returned r => simpa [hp] using h3
  | _ => simp [hp, Producer.isReturned] at h2

/-- Under every schedule, what was sent and what the producer would still send
is a beginning of the decoded keys up to the first key that does not decode. -/
theorem ahead_step {w : World} {st st1 : State} {l : Label} (h : Step st l st1)
    (ha : ∃ t, enqueued st.trace ++ pending st.producer ++ t = toEnqueue (objects w.pages)) :
    ∃ t, enqueued st1.trace ++ pending st1.producer ++ t = toEnqueue (objects w.pages) := by
  obtain ⟨t, ht⟩ := ha
  cases h with
  | readState pages hp => exact ⟨t, by simpa [enqueued_append, enqueued, hp] using ht⟩
  | fetch started pages err p evs hp hn =>
    obtain ⟨t1, ht1⟩ := next_ahead hn
    refine ⟨t1 ++ t, ?_⟩
    simp only [report_trace, report_producer, enqueued_append, (enqueued_next hn).1,
      List.append_nil]
    rw [hp, pending_listing, ← ht1] at ht
    simpa using ht
  | send i s objs pages w0 w1 hp hw hs =>
    exact ⟨t, by simpa [enqueued_append, enqueued, hp] using ht⟩
  | tickDefault s objs pages hp => exact ⟨t, by simpa [hp, pending_walkFn] using ht⟩
  | tickFired s objs pages ok left hp =>
    exact ⟨t, by simpa [enqueued_append, enqueued, hp, pending_walkFn] using ht⟩
  | producerDone s objs pages hp hcn =>
    exact ⟨pending st.producer ++ t, by simpa using ht⟩
  | worker i ev w0 w1 hw ha hs =>
    exact ⟨t, by simpa [enqueued_append, enqueued_call] using ht⟩

theorem ahead_exec (w : World) (sched : List Label) (st : State)
    (h : exec (init w) sched = some st) :
    ∃ t, enqueued st.trace ++ pending st.producer ++ t = toEnqueue (objects w.pages) :=
  exec_induction
    (fun st => ∃ t, enqueued st.trace ++ pending st.producer ++ t = toEnqueue (objects w.pages))
    (fun _ _ _ ha hs => ahead_step (Step.of_step hs) ha) (init w) sched st
    ⟨[], by simp [init, enqueued]⟩ h

/-! ## What the workers call -/

theorem held_set {ws : List Worker} {i : Nat} {w : Worker} (w1 : Worker) (h : ws[i]? = some w) :
    ((held (ws.set i w1) : Multiset GoString) + (holds w : Multiset GoString)) =
      (held ws : Multiset GoString) + (holds w1 : Multiset GoString) := by
  induction ws generalizing i with
  | nil => simp at h
  | cons a t ih =>
    cases i with
    | zero =>
      simp at h
      subst h
      simp only [held, List.set_cons_zero, List.flatMap_cons, ← Multiset.coe_add]
      abel
    | succ j =>
      simp at h
      have := ih h
      simp only [held, List.set_cons_succ, List.flatMap_cons, ← Multiset.coe_add] at this ⊢
      rw [add_assoc, this]
      abel

theorem mutated_call (w : Worker) (ev : WorkerEvent) (w1 : Worker)
    (h : Worker.step w ev = some w1) (hr : ∀ s, ev ≠ .recv s) :
    mutated (Worker.call w ev) ++ holds w1 = holds w := by
  rcases Worker.step_cases h with ⟨rfl, rfl, rfl⟩ | ⟨s, rfl, rfl, rfl⟩ | ⟨rfl, rfl, rfl⟩ |
    ⟨s, rfl, rfl, rfl⟩ | ⟨s, e, rfl, rfl, rfl⟩ <;> simp [Worker.call, holds, mutated]
  exact hr s rfl

/-- Under every schedule, the identifiers sent are those passed to the ACL
call together with those the workers still hold. -/
theorem perm_step {st st1 : State} {l : Label} (h : Step st l st1)
    (hp : (enqueued st.trace).Perm (mutated st.trace ++ held st.workers)) :
    (enqueued st1.trace).Perm (mutated st1.trace ++ held st1.workers) := by
  cases h with
  | readState pages hp1 => simpa [enqueued_append, mutated_append, enqueued, mutated] using hp
  | fetch started pages err p evs hp1 hn =>
    simpa [enqueued_append, mutated_append, (enqueued_next hn).1, (enqueued_next hn).2.1]
      using hp
  | send i s objs pages w0 w1 hp1 hw hs =>
    have h1 : w0 = .selecting ∧ w1 = .calling s := by
      rcases Worker.step_cases hs with ⟨rfl, h2, rfl⟩ | ⟨s, rfl, h2, rfl⟩ | ⟨rfl, h2, rfl⟩ |
        ⟨s, rfl, h2, rfl⟩ | ⟨s, e, rfl, h2, rfl⟩ <;> simp at h2
      subst h2
      exact ⟨rfl, rfl⟩
    obtain ⟨rfl, rfl⟩ := h1
    have h2 := held_set (.calling s) hw
    rw [← Multiset.coe_eq_coe] at hp ⊢
    simp only [holds, enqueued_append, mutated_append, enqueued, mutated, List.append_nil,
      ← Multiset.coe_add] at h2 hp ⊢
    rw [hp, add_assoc, ← h2]
    simp
  | tickDefault s objs pages hp1 => simpa using hp
  | tickFired s objs pages ok left hp1 =>
    simpa [enqueued_append, mutated_append, enqueued, mutated] using hp
  | producerDone s objs pages hp1 hcn => simpa using hp
  | worker i ev w0 w1 hw ha hs =>
    have h1 := held_set w1 hw
    have h2 := mutated_call w0 ev w1 hs (by intro s hs; subst hs; simp [State.allows] at ha)
    rw [← Multiset.coe_eq_coe] at hp ⊢
    simp only [report_trace, report_workers, enqueued_append, mutated_append, enqueued_call,
      List.append_nil, ← Multiset.coe_add] at hp ⊢
    rw [← h2, ← Multiset.coe_add] at h1
    have h3 : (held (st.workers.set i w1) : Multiset GoString) +
        (mutated (Worker.call w0 ev) : Multiset GoString) = (held st.workers : Multiset GoString) := by
      have h4 : ((held (st.workers.set i w1) : Multiset GoString) +
          (mutated (Worker.call w0 ev) : Multiset GoString)) + (holds w1 : Multiset GoString) =
          (held st.workers : Multiset GoString) + (holds w1 : Multiset GoString) := by
        rw [add_assoc, h1]
      exact add_right_cancel h4
    rw [hp, ← h3]
    abel

theorem perm_exec (w : World) (sched : List Label) (st : State)
    (h : exec (init w) sched = some st) :
    (enqueued st.trace).Perm (mutated st.trace ++ held st.workers) :=
  exec_induction (fun st => (enqueued st.trace).Perm (mutated st.trace ++ held st.workers))
    (fun _ _ _ hp hs => perm_step (Step.of_step hs) hp) (init w) sched st
    (by simp [init, enqueued, mutated, held, holds]) h

theorem held_returned {ws : List Worker} (h : ws.all Worker.isReturned = true) : held ws = [] := by
  induction ws with
  | nil => rfl
  | cons a t ih =>
    simp only [List.all_cons, Bool.and_eq_true] at h
    cases a with
    | returned r => simpa [held, holds] using ih h.2
    | _ => simp [Worker.isReturned] at h

/-! ## Checkpoint writes -/

theorem split_quiet {tr pre post : List Event} {s : GoString} {ok : Bool} (evs : List Event)
    (hno : writes evs = []) (h : tr ++ evs = pre ++ Event.write s ok :: post) :
    ∃ post0, tr = pre ++ Event.write s ok :: post0 ∧ post = post0 ++ evs := by
  rcases List.append_eq_append_iff.mp h with ⟨a, rfl, ha⟩ | ⟨c, rfl, hc⟩
  · rw [ha, writes_append] at hno
    simp [writes] at hno
  · cases c with
    | nil =>
      simp only [List.nil_append] at hc
      rw [← hc] at hno
      simp [writes] at hno
    | cons x c =>
      simp only [List.cons_append, List.cons.injEq] at hc
      obtain ⟨rfl, rfl⟩ := hc
      exact ⟨c, by simp, rfl⟩

theorem split_write {tr pre post : List Event} {s0 s : GoString} {ok0 ok : Bool}
    (h : tr ++ [Event.write s0 ok0] = pre ++ Event.write s ok :: post) :
    (pre = tr ∧ s = s0 ∧ ok = ok0 ∧ post = []) ∨
      ∃ post0, tr = pre ++ Event.write s ok :: post0 ∧ post = post0 ++ [Event.write s0 ok0] := by
  rcases List.append_eq_append_iff.mp h with ⟨a, rfl, ha⟩ | ⟨c, rfl, hc⟩
  · cases a with
    | nil =>
      simp only [List.nil_append, List.cons.injEq, Event.write.injEq] at ha
      obtain ⟨⟨rfl, rfl⟩, hp⟩ := ha
      exact Or.inl ⟨by simp, rfl, rfl, hp.symm⟩
    | cons x a =>
      simp only [List.cons_append, List.cons.injEq] at ha
      have := congrArg List.length ha.2
      simp at this
      omega
  · cases c with
    | nil =>
      simp only [List.nil_append, List.cons.injEq, Event.write.injEq] at hc
      obtain ⟨⟨rfl, rfl⟩, hp⟩ := hc
      exact Or.inl ⟨by simp, rfl, rfl, hp⟩
    | cons x c =>
      simp only [List.cons_append, List.cons.injEq] at hc
      obtain ⟨rfl, rfl⟩ := hc
      exact Or.inr ⟨c, by simp, rfl⟩

theorem walkFn_shape (objs : List Object) (pages : List ListObjectsV2Output) :
    (∀ s o pg, walkFn objs pages ≠ .ticking s o pg) ∧ ∀ pg, walkFn objs pages ≠ .starting pg := by
  induction objs with
  | nil => simp [walkFn]
  | cons obj objs ih =>
    simp only [walkFn]
    split
    · exact ih
    · split <;> simp

theorem next_shape {sa : Option GoString} {b : Bool} {pages : List ListObjectsV2Output}
    {err : Option Error} {p : Producer} {evs : List Event}
    (h : next sa b pages err = some (p, evs)) :
    (∀ s o pg, p ≠ .ticking s o pg) ∧ ∀ pg, p ≠ .starting pg := by
  cases b <;> cases pages <;> cases err <;> simp [next] at h <;> obtain ⟨rfl, -⟩ := h <;>
    first
    | exact walkFn_shape _ _
    | simp

theorem marked_init (w : World) : Marked (init w) := by
  refine ⟨?_, ?_, ?_⟩
  · intro s objs pages h
    simp [init] at h
  · intro pre s ok post h
    simp [init] at h
  · intro pre s ok post h
    simp [init] at h

/-- A step that appends events without a write and without a send, and does
not bring the producer to line 90, keeps `Marked`. -/
theorem marked_quiet {st st1 : State} (evs : List Event) (hm : Marked st)
    (ht : st1.trace = st.trace ++ evs) (hw : writes evs = []) (he : enqueued evs = [])
    (hp : ∀ s o pg, st1.producer = .ticking s o pg → st.producer = .ticking s o pg) :
    Marked st1 := by
  refine ⟨?_, ?_, ?_⟩
  · intro s objs pages h
    rw [ht, enqueued_append, he, List.append_nil]
    exact hm.last s objs pages (hp s objs pages h)
  · intro pre s ok post h
    rw [ht] at h
    obtain ⟨post0, h0, -⟩ := split_quiet evs hw h
    exact hm.wrote pre s ok post0 h0
  · intro pre s ok post h hpost
    rw [ht] at h
    obtain ⟨post0, h0, rfl⟩ := split_quiet evs hw h
    rw [enqueued_append] at hpost
    have h1 : enqueued post0 = [] := (List.append_eq_nil.mp hpost).1
    obtain ⟨h2, h3⟩ := hm.once pre s ok post0 h0 h1
    refine ⟨by rw [writes_append, h2, hw]; rfl, ?_⟩
    intro s2 objs pages h4
    exact h3 s2 objs pages (hp s2 objs pages h4)

theorem marked_step {st st1 : State} {l : Label} (h : Step st l st1) (hm : Marked st) :
    Marked st1 := by
  cases h with
  | readState pages hp =>
    exact marked_quiet [.readFile] hm rfl rfl rfl (by intro s o pg h; simp at h)
  | fetch started pages err p evs hp hn =>
    refine marked_quiet evs hm (by simp) (enqueued_next hn).2.2.1 (enqueued_next hn).1 ?_
    intro s o pg h
    simp only [report_producer] at h
    exact absurd h ((next_shape hn).1 s o pg)
  | send i s objs pages w0 w1 hp hw hs =>
    refine ⟨?_, ?_, ?_⟩
    · intro s2 objs2 pages2 h
      simp only [Producer.ticking.injEq] at h
      obtain ⟨rfl, -, -⟩ := h
      simp [enqueued_append, enqueued]
    · intro pre s2 ok post h
      obtain ⟨post0, h0, -⟩ := split_quiet [.enqueue s] rfl h
      exact hm.wrote pre s2 ok post0 h0
    · intro pre s2 ok post h hpost
      obtain ⟨post0, h0, rfl⟩ := split_quiet [.enqueue s] rfl h
      simp [enqueued_append, enqueued] at hpost
  | tickDefault s objs pages hp =>
    refine ⟨?_, ?_, ?_⟩
    · intro s2 objs2 pages2 h
      exact absurd h ((walkFn_shape objs pages).1 s2 objs2 pages2)
    · exact hm.wrote
    · intro pre s2 ok post h hpost
      exact absurd hp ((hm.once pre s2 ok post h hpost).2 s objs pages)
  | tickFired s objs pages ok left hp =>
    refine ⟨?_, ?_, ?_⟩
    · intro s2 objs2 pages2 h
      exact absurd h ((walkFn_shape objs pages).1 s2 objs2 pages2)
    · intro pre s2 ok2 post h
      rcases split_write h with ⟨rfl, rfl, -, -⟩ | ⟨post0, h0, -⟩
      · exact hm.last s2 objs pages hp
      · exact hm.wrote pre s2 ok2 post0 h0
    · intro pre s2 ok2 post h hpost
      rcases split_write h with ⟨rfl, rfl, -, rfl⟩ | ⟨post0, h0, rfl⟩
      · exact ⟨rfl, fun s3 o pg => (walkFn_shape objs pages).1 s3 o pg⟩
      · rw [enqueued_append] at hpost
        exact absurd hp ((hm.once pre s2 ok2 post0 h0 (List.append_eq_nil.mp hpost).1).2 s objs pages)
  | producerDone s objs pages hp hc =>
    exact marked_quiet [] hm (by simp) rfl rfl (by intro s o pg h; simp at h)
  | worker i ev w0 w1 hw ha hs =>
    exact marked_quiet (Worker.call w0 ev) hm (by simp) (writes_call _ _)
      (enqueued_call _ _) (by intro s o pg h; simpa using h)

theorem marked_exec (w : World) (sched : List Label) (st : State)
    (h : exec (init w) sched = some st) : Marked st :=
  exec_induction Marked (fun _ _ _ hm hs => marked_step (Step.of_step hs) hm) (init w) sched st
    (marked_init w) h

/-! ## The start of the listing and the state file -/

theorem started_init (w : World) : Started w (init w) := by
  refine ⟨fun _ _ => rfl, ?_, ?_⟩
  · intro h
    exact absurd rfl (h w.pages)
  · intro sa h
    simp [init] at h

theorem started_step {w : World} {st st1 : State} {l : Label} (h : Step st l st1)
    (hs : Started w st) : Started w st1 := by
  obtain ⟨hfresh, hstart, hlists⟩ := hs
  cases h with
  | readState pages hp =>
    refine ⟨?_, ?_, ?_⟩
    · intro pg h; simp at h
    · intro _
      simp only
      rw [hfresh pages hp]
    · intro sa h
      simp only [List.mem_append, List.mem_singleton] at h
      rcases h with h | h
      · exact hlists sa h
      · cases h
  | fetch started pages err p evs hp hn =>
    have h0 : st.startAfter = w.file.map TrimSpace := hstart (by intro pg h; simp [hp] at h)
    refine ⟨?_, ?_, ?_⟩
    · intro pg h
      simp only [report_producer] at h
      exact absurd h ((next_shape hn).2 pg)
    · intro _
      simpa using h0
    · intro sa h
      simp only [report_trace, List.mem_append] at h
      rcases h with h | h
      · exact hlists sa h
      · have := (enqueued_next hn).2.2.2 _ h
        simp only [Event.list.injEq] at this
        rw [this, h0]
  | send i s objs pages w0 w1 hp hw hs =>
    refine ⟨?_, ?_, ?_⟩
    · intro pg h; simp at h
    · intro _
      exact hstart (by intro pg h; simp [hp] at h)
    · intro sa h
      simp only [List.mem_append, List.mem_singleton] at h
      rcases h with h | h
      · exact hlists sa h
      · cases h
  | tickDefault s objs pages hp =>
    refine ⟨?_, ?_, hlists⟩
    · intro pg h
      exact absurd h ((walkFn_shape objs pages).2 pg)
    · intro _
      exact hstart (by intro pg h; simp [hp] at h)
  | tickFired s objs pages ok left hp =>
    refine ⟨?_, ?_, ?_⟩
    · intro pg h
      exact absurd h ((walkFn_shape objs pages).2 pg)
    · intro _
      exact hstart (by intro pg h; simp [hp] at h)
    · intro sa h
      simp only [List.mem_append, List.mem_singleton] at h
      rcases h with h | h
      · exact hlists sa h
      · cases h
  | producerDone s objs pages hp hc =>
    refine ⟨?_, ?_, hlists⟩
    · intro pg h; simp at h
    · intro _
      exact hstart (by intro pg h; simp [hp] at h)
  | worker i ev w0 w1 hw ha hs =>
    refine ⟨?_, ?_, ?_⟩
    · intro pg h
      simpa using hfresh pg (by simpa using h)
    · intro h
      simpa using hstart (by simpa using h)
    · intro sa h
      simp only [report_trace, List.mem_append] at h
      rcases h with h | h
      · exact hlists sa h
      · cases w0 <;> cases ev <;> simp [Worker.call] at h

theorem started_exec (w : World) (sched : List Label) (st : State)
    (h : exec (init w) sched = some st) : Started w st :=
  exec_induction (Started w) (fun _ _ _ hm hs => started_step (Step.of_step hs) hm) (init w)
    sched st (started_init w) h

theorem kept_init (w : World) : Kept w (init w) := by
  refine ⟨?_, fun _ => rfl⟩
  intro s h
  simp [init, writes] at h

theorem kept_quiet {w : World} {st st1 : State} (evs : List Event) (hk : Kept w st)
    (ht : st1.trace = st.trace ++ evs) (hw : writes evs = []) (hf : st1.file = st.file) :
    Kept w st1 := by
  refine ⟨?_, ?_⟩
  · intro s h
    rw [ht, writes_append, hw, List.append_nil] at h
    rw [hf]
    exact hk.file s h
  · intro h
    rw [ht, writes_append, hw, List.append_nil] at h
    rw [hf]
    exact hk.unchanged h

theorem kept_step {w : World} {st st1 : State} {l : Label} (h : Step st l st1)
    (hk : Kept w st) : Kept w st1 := by
  cases h with
  | readState pages hp => exact kept_quiet [.readFile] hk rfl rfl rfl
  | fetch started pages err p evs hp hn =>
    exact kept_quiet evs hk (by simp) (enqueued_next hn).2.2.1 (by simp)
  | send i s objs pages w0 w1 hp hw hs => exact kept_quiet ([.enqueue s]) hk rfl rfl rfl
  | tickDefault s objs pages hp => exact kept_quiet [] hk (by simp) rfl rfl
  | tickFired s objs pages ok left hp =>
    refine ⟨?_, ?_⟩
    · intro s2 h
      simp [writes_append, writes] at h
      obtain ⟨rfl, rfl⟩ := h
      simp
    · intro h
      simp [writes_append, writes] at h
  | producerDone s objs pages hp hc => exact kept_quiet [] hk (by simp) rfl rfl
  | worker i ev w0 w1 hw ha hs =>
    exact kept_quiet (Worker.call w0 ev) hk (by simp) (writes_call _ _) (by simp)

theorem kept_exec (w : World) (sched : List Label) (st : State)
    (h : exec (init w) sched = some st) : Kept w st :=
  exec_induction (Kept w) (fun _ _ _ hm hs => kept_step (Step.of_step hs) hm) (init w)
    sched st (kept_init w) h

/-! ## Decoded keys -/

theorem toEnqueue_decodes {objs : List Object} (h : ∀ o ∈ objs, decodes o = true) :
    toEnqueue objs = decodedKeys objs := by
  induction objs with
  | nil => rfl
  | cons obj objs ih =>
    have h1 := h obj (List.mem_cons_self obj objs)
    have h2 := ih (fun o ho => h o (List.mem_cons_of_mem obj ho))
    simp only [decodes] at h1
    simp only [toEnqueue, decodedKeys, List.filterMap_cons]
    cases hk : obj.Key with
    | none => simpa [decodedKeys] using h2
    | some key =>
      rw [hk] at h1
      cases hu : QueryUnescape key with
      | error e => simp [hu] at h1
      | ok s => simpa [hu, Except.toOption, decodedKeys] using h2

theorem toEnqueue_stop {pre post : List Object} {key : GoString}
    (h : ∀ o ∈ pre, decodes o = true) (hk : decodes ⟨some key⟩ = false) :
    toEnqueue (pre ++ ⟨some key⟩ :: post) = decodedKeys pre := by
  induction pre with
  | nil =>
    simp only [decodes] at hk
    simp only [List.nil_append, toEnqueue, decodedKeys, List.filterMap_nil]
    cases hu : QueryUnescape key with
    | error e => rfl
    | ok s => simp [hu] at hk
  | cons obj objs ih =>
    have h1 := h obj (List.mem_cons_self obj objs)
    have h2 := ih (fun o ho => h o (List.mem_cons_of_mem obj ho))
    simp only [decodes] at h1
    simp only [List.cons_append, toEnqueue, decodedKeys, List.filterMap_cons]
    cases hk1 : obj.Key with
    | none => simpa [decodedKeys] using h2
    | some key1 =>
      rw [hk1] at h1
      cases hu : QueryUnescape key1 with
      | error e => simp [hu] at h1
      | ok s => simpa [hu, Except.toOption, decodedKeys] using h2

/-! ## Runs that return -/

/-- Every run that met no outside failure can be continued, without outside
failure, until `group.Wait()` returns, and it then returns `nil`. -/
theorem complete (w : World) (sched : List Label) (st : State)
    (hq : ∀ l ∈ sched, Label.quiet l = true) (h : exec (init w) sched = some st) :
    ∃ sched1 st1, (∀ l ∈ sched1, Label.quiet l = true) ∧
      exec (init w) (sched ++ sched1) = some st1 ∧ st1.wait = some none := by
  obtain ⟨sched1, st1, hq1, he, hw⟩ := finish st.fuel st (live_exec w sched st h) (Nat.le_refl _)
  have h2 : exec (init w) (sched ++ sched1) = some st1 := by
    rw [exec_append, h]
    exact he
  have hq2 : ∀ l ∈ sched ++ sched1, Label.quiet l = true := by
    intro l hl
    rcases List.mem_append.mp hl with hl | hl
    · exact hq l hl
    · exact hq1 l hl
  exact ⟨sched1, st1, hq1, h2, (calm_wait (calm_exec w _ st1 hq2 h2) hw).1⟩

theorem fuel_init (w : World) : (init w).fuel = cost w.pages + 12 := by
  simp [init, State.fuel, Producer.fuel, Worker.fuel]

theorem wait_returned {st : State} (hw : st.wait ≠ none) :
    st.producer.isReturned = true ∧ st.workers.all Worker.isReturned = true := by
  have h1 : (st.producer.isReturned && st.workers.all Worker.isReturned) = true := by
    by_contra hne
    simp only [Bool.not_eq_true] at hne
    exact hw (by simp [State.wait, hne])
  simpa using h1

theorem run_pipeline {bucket lastKeyFile : GoString} {w : World} {sched : List Label} {r : Run}
    (hb : bucket ≠ []) (hf : lastKeyFile ≠ []) (hs : w.session = none)
    (hr : run bucket lastKeyFile w sched = some r) :
    ∃ st, exec (init w) sched = some st ∧ r = .pipeline st := by
  simp only [run, hb, hf, or_self, if_false, hs] at hr
  cases he : exec (init w) sched with
  | none => simp [he] at hr
  | some st =>
    simp [he] at hr
    exact ⟨st, rfl, hr.symm⟩

theorem run_exec {bucket lastKeyFile : GoString} {w : World} (sched : List Label)
    (hb : bucket ≠ []) (hf : lastKeyFile ≠ []) (hs : w.session = none) :
    run bucket lastKeyFile w sched = (exec (init w) sched).map .pipeline := by
  simp [run, hb, hf, hs]

/-- Under every schedule, as long as the producer has not returned, what was
sent and what the producer has still to send make up the decoded keys up to
the first key that does not decode. -/
theorem exact_step {w : World} {st st1 : State} {l : Label} (h : Step st l st1)
    (he : st.producer.isReturned = false →
      enqueued st.trace ++ pending st.producer = toEnqueue (objects w.pages))
    (hr : st1.producer.isReturned = false) :
    enqueued st1.trace ++ pending st1.producer = toEnqueue (objects w.pages) := by
  cases h with
  | readState pages hp =>
    have h0 := he (by rw [hp]; rfl)
    simpa [enqueued_append, enqueued, hp] using h0
  | fetch started pages err p evs hp hn =>
    have h0 := he (by rw [hp]; rfl)
    cases err with
    | none =>
      simpa [enqueued_append, (enqueued_next hn).1, hp, (next_quiet hn).1] using h0
    | some e =>
      cases started <;> cases pages <;> simp [next] at hn <;> obtain ⟨rfl, -⟩ := hn <;>
        simp [Producer.isReturned] at hr
  | send i s objs pages w0 w1 hp hw hs =>
    have h0 := he (by rw [hp]; rfl)
    simpa [enqueued_append, enqueued, hp] using h0
  | tickDefault s objs pages hp =>
    have h0 := he (by rw [hp]; rfl)
    simpa [hp, pending_walkFn] using h0
  | tickFired s objs pages ok left hp =>
    have h0 := he (by rw [hp]; rfl)
    simpa [enqueued_append, enqueued, hp, pending_walkFn] using h0
  | producerDone s objs pages hp hcn => simp [Producer.isReturned] at hr
  | worker i ev w0 w1 hw ha hs =>
    have h0 := he (by simpa using hr)
    simpa [enqueued_append, enqueued_call] using h0

theorem exact_exec (w : World) (sched : List Label) (st : State)
    (h : exec (init w) sched = some st) (hr : st.producer.isReturned = false) :
    enqueued st.trace ++ pending st.producer = toEnqueue (objects w.pages) := by
  have key := exec_induction
    (fun st => st.producer.isReturned = false →
      enqueued st.trace ++ pending st.producer = toEnqueue (objects w.pages))
    (fun _ _ _ he hs => exact_step (Step.of_step hs) he) (init w) sched st
    (fun _ => by simp [init, enqueued]) h
  exact key hr

/-- When `walkFn` itself ends the listing (the producer returns in a step that
is neither a cancellation nor a failed page request), everything up to the
first key that does not decode has been sent, and the producer returns `nil`. -/
theorem walk_ends {w : World} {st st1 : State} {l : Label}
    (he : enqueued st.trace ++ pending st.producer = toEnqueue (objects w.pages))
    (hs : Step st l st1) (hl : l = .fetch none ∨ ∃ t, l = .tick t)
    (hr : st1.producer.isReturned = true) :
    st1.producer = .returned none ∧ enqueued st1.trace = toEnqueue (objects w.pages) := by
  have hres : ∀ p : Producer, p.isReturned = true → p.result = none → p = .returned none := by
    intro p h1 h2
    cases p with
    | returned r => simp only [result_returned] at h2; rw [h2]
    | _ => simp [Producer.isReturned] at h1
  have hpend : ∀ p : Producer, p.isReturned = true → pending p = [] := by
    intro p h1
    cases p with
    | returned r => rfl
    | _ => simp [Producer.isReturned] at h1
  cases hs with
  | readState pages hp => simp [Producer.isReturned] at hr
  | fetch started pages err p evs hp hn =>
    rcases hl with hl | ⟨t, hl⟩
    · simp only [Label.fetch.injEq] at hl
      subst hl
      simp only [report_producer] at hr
      obtain ⟨h1, h2⟩ := next_quiet hn
      refine ⟨by simpa using hres p hr h2, ?_⟩
      rw [hp, pending_listing, ← h1, hpend p hr, List.append_nil] at he
      simpa [enqueued_append, (enqueued_next hn).1] using he
    · cases hl
  | send i s objs pages w0 w1 hp hw hs => simp [Producer.isReturned] at hr
  | tickDefault s objs pages hp =>
    refine ⟨hres _ hr (result_walkFn _ _), ?_⟩
    rw [hp, pending_ticking, ← pending_walkFn, hpend _ hr, List.append_nil] at he
    exact he
  | tickFired s objs pages ok left hp =>
    refine ⟨hres _ hr (result_walkFn _ _), ?_⟩
    rw [hp, pending_ticking, ← pending_walkFn, hpend _ hr, List.append_nil] at he
    simpa [enqueued_append, enqueued] using he
  | producerDone s objs pages hp hcn => rcases hl with hl | ⟨t, hl⟩ <;> cases hl
  | worker i ev w0 w1 hw ha hs => rcases hl with hl | ⟨t, hl⟩ <;> cases hl

/-! ## The properties of `run` -/

/-- C1: for every finite sequence of pages whose keys all decode, when no page
request and no ACL call fails (so that nothing is cancelled), `run` returns
`nil` and the identifiers passed to the ACL call by all workers together are,
as a multiset, the identifiers the producer sent, whatever worker received
which. Every such schedule is finite (at most `cost w.pages + 12` actions),
every such schedule can be continued until `run` returns `nil`, and once `run`
has returned its result is `nil`, the calls are a permutation of the sends and
the sends are the decoded keys of the listing. -/
theorem every_key_mutated_once (bucket lastKeyFile : GoString) (w : World) (sched : List Label)
    (r : Run) (hb : bucket ≠ []) (hf : lastKeyFile ≠ []) (hs : w.session = none)
    (hd : ∀ o ∈ objects w.pages, decodes o = true)
    (hq : ∀ l ∈ sched, Label.quiet l = true)
    (hr : run bucket lastKeyFile w sched = some r) :
    sched.length ≤ cost w.pages + 12 ∧
    (∃ sched1 r1, (∀ l ∈ sched1, Label.quiet l = true) ∧
      run bucket lastKeyFile w (sched ++ sched1) = some r1 ∧ r1.result = some none) ∧
    (r.result ≠ none →
      r.result = some none ∧ (mutated r.trace).Perm (enqueued r.trace) ∧
      enqueued r.trace = decodedKeys (objects w.pages)) := by
  obtain ⟨st, he, rfl⟩ := run_pipeline hb hf hs hr
  refine ⟨?_, ?_, ?_⟩
  · have := exec_fuel (init w) sched st he
    rw [fuel_init] at this
    omega
  · obtain ⟨sched1, st1, hq1, he1, hw1⟩ := complete w sched st hq he
    exact ⟨sched1, .pipeline st1, hq1, by rw [run_exec _ hb hf hs, he1]; rfl, hw1⟩
  · intro hw
    have hw1 : st.wait ≠ none := hw
    obtain ⟨h1, h2⟩ := calm_wait (calm_exec w sched st hq he) hw1
    refine ⟨h1, ?_, ?_⟩
    · have hp := perm_exec w sched st he
      rw [held_returned (wait_returned hw1).2, List.append_nil] at hp
      simpa [Run.trace, mutated, enqueued] using hp.symm
    · simpa [Run.trace, enqueued, toEnqueue_decodes hd] using h2

/-- The run `noTick` over the example listing: it returns `nil`, the keys are
sent in the order a, b, c and passed to the ACL call in the order b, a, c. -/
theorem every_key_mutated_once_witness :
    run (str "bucket") (str "state") (abc none) noTick = some (.pipeline (reach (abc none) noTick)) ∧
    (Run.pipeline (reach (abc none) noTick)).result = some none ∧
    (mutated (Run.pipeline (reach (abc none) noTick)).trace).Perm
      (enqueued (Run.pipeline (reach (abc none) noTick)).trace) ∧
    enqueued (Run.pipeline (reach (abc none) noTick)).trace = [str "a", str "b", str "c"] ∧
    mutated (Run.pipeline (reach (abc none) noTick)).trace = [str "b", str "a", str "c"] := by
  have h := every_key_mutated_once (str "bucket") (str "state") (abc none) noTick
    (.pipeline (reach (abc none) noTick)) (by decide) (by decide) rfl (by decide) (by decide)
    (by decide)
  have h3 := h.2.2 (by decide)
  exact ⟨by decide, h3.1, h3.2.1, by rw [h3.2.2]; decide, by decide⟩

/-- C3, as the code behaves: on the listing `undecodable`, whose second key
`%zz` is rejected by `url.QueryUnescape`, and with no other failure, `run`
returns `nil`, not an error. -/
theorem decode_error_not_fatal :
    decodes ⟨some (str "%zz")⟩ = false ∧
    (∀ l ∈ pastBadKey, Label.quiet l = true) ∧
    (run (str "bucket") (str "state") undecodable pastBadKey).map Run.result =
      some (some none) := by
  decide

/-- C3, amended: for every page sequence that contains a raw key which
`url.QueryUnescape` rejects, and with no other failure (the session is
created, no page request fails, no ACL call fails), `run` terminates and
returns `nil`: every such schedule is finite, can be continued until `run`
returns `nil`, and once `run` has returned its result is `nil`. The decode
error ends the listing and is not an error of the run. -/
theorem decode_error_returns_nil (bucket lastKeyFile : GoString) (w : World)
    (sched : List Label) (r : Run) (hb : bucket ≠ []) (hf : lastKeyFile ≠ [])
    (hs : w.session = none) (_hbad : ∃ o ∈ objects w.pages, decodes o = false)
    (hq : ∀ l ∈ sched, Label.quiet l = true)
    (hr : run bucket lastKeyFile w sched = some r) :
    sched.length ≤ cost w.pages + 12 ∧
    (∃ sched1 r1, (∀ l ∈ sched1, Label.quiet l = true) ∧
      run bucket lastKeyFile w (sched ++ sched1) = some r1 ∧ r1.result = some none) ∧
    (r.result ≠ none → r.result = some none) := by
  obtain ⟨st, he, rfl⟩ := run_pipeline hb hf hs hr
  refine ⟨?_, ?_, ?_⟩
  · have := exec_fuel (init w) sched st he
    rw [fuel_init] at this
    omega
  · obtain ⟨sched1, st1, hq1, he1, hw1⟩ := complete w sched st hq he
    exact ⟨sched1, .pipeline st1, hq1, by rw [run_exec _ hb hf hs, he1]; rfl, hw1⟩
  · intro hw
    exact (calm_wait (calm_exec w sched st hq he) hw).1

/-- The run `pastBadKey` over the listing `undecodable` returns `nil`. -/
theorem decode_error_returns_nil_witness :
    (∃ o ∈ objects undecodable.pages, decodes o = false) ∧
    run (str "bucket") (str "state") undecodable pastBadKey =
      some (.pipeline (reach undecodable pastBadKey)) ∧
    (Run.pipeline (reach undecodable pastBadKey)).result = some none := by
  have h := decode_error_returns_nil (str "bucket") (str "state") undecodable pastBadKey
    (.pipeline (reach undecodable pastBadKey)) (by decide) (by decide) rfl (by decide)
    (by decide) (by decide)
  exact ⟨by decide, by decide, h.2.2 (by decide)⟩

/-- C4: under every page sequence and every schedule (so every schedule of
ticks), an identifier passed to `ioutil.WriteFile` was handed to `work` before
the write, and it is the last identifier handed to `work` at the moment of
the write. -/
theorem checkpoint_names_last_enqueued (w : World) (sched : List Label) (st : State)
    (pre post : List Event) (s : GoString) (ok : Bool)
    (h : exec (init w) sched = some st)
    (ht : st.trace = pre ++ Event.write s ok :: post) :
    s ∈ enqueued pre ∧ (enqueued pre).getLast? = some s := by
  have h1 := (marked_exec w sched st h).wrote pre s ok post ht
  exact ⟨List.mem_of_getLast?_eq_some h1, h1⟩

/-- In the run `twoTicks` the first write names b, the last key sent before it. -/
theorem checkpoint_names_last_enqueued_witness :
    exec (init (abc none)) twoTicks = some (reach (abc none) twoTicks) ∧
    (reach (abc none) twoTicks).trace =
      [.readFile, .list none, .enqueue (str "a"), .enqueue (str "b")] ++
        Event.write (str "b") false ::
          [.mutate (str "b"), .list none, .enqueue (str "c"), .write (str "c") true,
           .mutate (str "a"), .mutate (str "c")] ∧
    str "b" ∈ enqueued [.readFile, .list none, .enqueue (str "a"), .enqueue (str "b")] ∧
    (enqueued [.readFile, .list none, .enqueue (str "a"), .enqueue (str "b")]).getLast? =
      some (str "b") :=
  ⟨by decide, by decide,
    checkpoint_names_last_enqueued (abc none) twoTicks (reach (abc none) twoTicks)
      [.readFile, .list none, .enqueue (str "a"), .enqueue (str "b")]
      [.mutate (str "b"), .list none, .enqueue (str "c"), .write (str "c") true,
       .mutate (str "a"), .mutate (str "c")]
      (str "b") false (by decide) (by decide)⟩

/-- C5, as the code behaves: in the run `noTick` over the example listing
(pages a, b and then c, no failure) `run` returns `nil` with `nKeys = 3`, and
the state file, absent at startup, is still absent at the end: no checkpoint
was persisted, because the ticker never fired. -/
theorem example_run_without_tick :
    (∀ l ∈ noTick, Label.quiet l = true) ∧
    (exec (init (abc none)) noTick).map (fun st => (st.wait, st.nKeys, st.file)) =
      some (some none, 3, none) := by
  decide

theorem toEnqueue_abc (file : Option GoString) :
    toEnqueue (objects (abc file).pages) = [[97], [98], [99]] := by
  show toEnqueue (objects (abc none).pages) = [[97], [98], [99]]
  decide

/-- C5, amended: when the source yields the keys a, b, c across two pages
(a and b, then c) with no failure, the run completes successfully with a
processed count of 3; the state file is written only when a tick is observed
after a send, so at the end of the run it holds c when the tick check after
the send of c observed a tick and the write succeeded, and it is as it was at
startup when no tick was observed during the run. -/
theorem example_run (file : Option GoString) (sched : List Label) (st : State)
    (hq : ∀ l ∈ sched, Label.quiet l = true)
    (h : exec (init (abc file)) sched = some st) :
    (∃ sched1 st1, (∀ l ∈ sched1, Label.quiet l = true) ∧
      exec (init (abc file)) (sched ++ sched1) = some st1 ∧ st1.wait = some none) ∧
    (st.wait ≠ none →
      st.wait = some none ∧ st.nKeys = 3 ∧
      enqueued st.trace = [str "a", str "b", str "c"] ∧
      (writes st.trace = [] → st.file = file) ∧
      (Event.write (str "c") true ∈ st.trace → st.file = some (str "c"))) := by
  refine ⟨complete (abc file) sched st hq h, ?_⟩
  intro hw
  obtain ⟨h1, h2⟩ := calm_wait (calm_exec (abc file) sched st hq h) hw
  rw [toEnqueue_abc] at h2
  have ha : str "a" = [97] := by decide
  have hb : str "b" = [98] := by decide
  have hc : str "c" = [99] := by decide
  rw [ha, hb, hc]
  refine ⟨h1, ?_, h2, (kept_exec (abc file) sched st h).unchanged, ?_⟩
  · rw [count_exec (abc file) sched st h, h2]
    rfl
  · intro hmem
    obtain ⟨pre, post, ht⟩ := List.append_of_mem hmem
    have hm := marked_exec (abc file) sched st h
    have h3 := hm.wrote pre [99] true post ht
    have h4 : enqueued pre ++ enqueued post = [[97], [98], [99]] := by
      rw [← h2, ht, enqueued_append]
      rfl
    have h5 : enqueued post = [] := by
      generalize enqueued pre = x at h3 h4
      generalize enqueued post = y at h4
      rcases x with _ | ⟨x1, _ | ⟨x2, _ | ⟨x3, _ | ⟨x4, x⟩⟩⟩⟩ <;> simp at h3 h4
      · obtain ⟨rfl, rfl⟩ := h4; simp at h3
      · obtain ⟨rfl, rfl, rfl⟩ := h4; simp at h3
      · exact h4.2.2.2
    have h6 := (hm.once pre [99] true post ht h5).1
    apply (kept_exec (abc file) sched st h).file
    rw [ht, writes_append]
    simp [writes, h6]

/-- In the run `twoTicks` the tick after the send of c is observed and its write
succeeds: the state file holds c at the end. -/
theorem example_run_witness :
    (∀ l ∈ twoTicks, Label.quiet l = true) ∧
    exec (init (abc none)) twoTicks = some (reach (abc none) twoTicks) ∧
    (reach (abc none) twoTicks).wait = some none ∧
    (reach (abc none) twoTicks).nKeys = 3 ∧
    Event.write (str "c") true ∈ (reach (abc none) twoTicks).trace ∧
    (reach (abc none) twoTicks).file = some (str "c") := by
  have h := (example_run none twoTicks (reach (abc none) twoTicks) (by decide) (by decide)).2
    (by decide)
  exact ⟨by decide, by decide, h.1, h.2.1, by decide, h.2.2.2.2 (by decide)⟩

/-! ### The start-after position -/

/-- C2, at the failing input: the first key of the listing `spaced` is a blank
followed by `b` (raw `+b`); a tick right after it is sent writes these two
bytes to the state file (line 95), when nothing else has been sent. The next
startup reads them through `bytes.TrimSpace` (line 107) and issues its first
page request with start-after `b`, not with the checkpoint. The key `a` lies
strictly after the checkpoint and before `b` in byte order: it was never
sent, and a listing that starts after `b` does not yield it. -/
theorem checkpoint_read_back_trimmed :
    (exec (init spaced) checkpointed).map (fun st => (enqueued st.trace, st.file)) =
      some ([str " b"], some (str " b")) ∧
    (exec (init (resumed (some (str " b")))) [.readState, .fetch none]).map
      (fun st => st.trace) = some [.readFile, .list (some (str "b"))] ∧
    str "b" ≠ str " b" ∧
    str " b" < str "a" ∧ str "a" < str "b" := by
  decide

/-! ### Checkpoint writes that fail -/

theorem sameButWrite_cases {l1 l2 : Label} (h : Label.sameButWrite l1 l2 = true) :
    l1 = l2 ∨ ∃ ok1 left1 ok2 left2, l1 = .tick (.fired ok1 left1) ∧
      l2 = .tick (.fired ok2 left2) := by
  unfold Label.sameButWrite at h
  split at h
  · next ok1 left1 ok2 left2 => exact Or.inr ⟨ok1, left1, ok2, left2, rfl, rfl⟩
  · exact Or.inl (of_decide_eq_true h)

theorem alike_refl (st : State) : Alike st st :=
  ⟨rfl, rfl, rfl, rfl, rfl, rfl, rfl, rfl, fun _ _ => rfl⟩

theorem alike_report {a b : State} (r : Option Error) (h : Alike a b) :
    Alike (State.report a r) (State.report b r) := by
  refine ⟨by simpa using h.producer, by simpa using h.workers, by simpa using h.nKeys,
    by simpa using h.startAfter, ?_, ?_, by simpa using h.enqueued, by simpa using h.mutated, ?_⟩
  · rw [report_cancelled, report_cancelled, h.cancelled, h.err]
  · rw [report_err, report_err, h.err]
  · intro pages hp
    simpa using h.file pages (by simpa using hp)

theorem alike_step {a b a1 : State} {l1 l2 : Label} (h : Alike a b) (hs : Step a l1 a1)
    (hl : Label.sameButWrite l1 l2 = true) : ∃ b1, Step b l2 b1 ∧ Alike a1 b1 := by
  cases hs with
  | readState pages hp =>
    rcases sameButWrite_cases hl with rfl | ⟨_, _, _, _, h1, _⟩
    · refine ⟨_, Step.readState b pages (h.producer ▸ hp), ?_⟩
      exact ⟨rfl, h.workers, h.nKeys, by simp [h.file pages hp], h.cancelled, h.err,
        by simp [enqueued_append, h.enqueued], by simp [mutated_append, h.mutated],
        by intro pg hpg; simp at hpg⟩
    · cases h1
  | fetch started pages err p evs hp hn =>
    rcases sameButWrite_cases hl with rfl | ⟨_, _, _, _, h1, _⟩
    · refine ⟨_, Step.fetch b started pages err p evs (h.producer ▸ hp) (h.startAfter ▸ hn), ?_⟩
      apply alike_report
      exact ⟨rfl, h.workers, h.nKeys, h.startAfter, h.cancelled, h.err,
        by simp [enqueued_append, h.enqueued], by simp [mutated_append, h.mutated],
        by intro pg hpg; exact absurd hpg ((next_shape hn).2 pg)⟩
    · cases h1
  | send i s objs pages w0 w1 hp hw hs =>
    rcases sameButWrite_cases hl with rfl | ⟨_, _, _, _, h1, _⟩
    · refine ⟨_, Step.send b i s objs pages w0 w1 (h.producer ▸ hp) (h.workers ▸ hw) hs, ?_⟩
      exact ⟨rfl, by simp [h.workers], by simp [h.nKeys], h.startAfter, h.cancelled, h.err,
        by simp [enqueued_append, h.enqueued], by simp [mutated_append, h.mutated],
        by intro pg hpg; simp at hpg⟩
    · cases h1
  | tickDefault s objs pages hp =>
    rcases sameButWrite_cases hl with rfl | ⟨_, _, _, _, h1, _⟩
    · refine ⟨_, Step.tickDefault b s objs pages (h.producer ▸ hp), ?_⟩
      exact ⟨rfl, h.workers, h.nKeys, h.startAfter, h.cancelled, h.err, h.enqueued, h.mutated,
        by intro pg hpg; exact absurd hpg ((walkFn_shape objs pages).2 pg)⟩
    · cases h1
  | tickFired s objs pages ok left hp =>
    have key : ∀ ok2 left2, ∃ b1, Step b (.tick (.fired ok2 left2)) b1 ∧
        Alike { a with
          producer := walkFn objs pages
          file := if ok then some s else left
          trace := a.trace ++ [.write s ok] } b1 := by
      intro ok2 left2
      refine ⟨_, Step.tickFired b s objs pages ok2 left2 (h.producer ▸ hp), ?_⟩
      exact ⟨rfl, h.workers, h.nKeys, h.startAfter, h.cancelled, h.err,
        by simp [enqueued_append, enqueued, h.enqueued],
        by simp [mutated_append, mutated, h.mutated],
        by intro pg hpg; exact absurd hpg ((walkFn_shape objs pages).2 pg)⟩
    rcases sameButWrite_cases hl with rfl | ⟨_, _, ok2, left2, _, rfl⟩
    · exact key ok left
    · exact key ok2 left2
  | producerDone s objs pages hp hc =>
    rcases sameButWrite_cases hl with rfl | ⟨_, _, _, _, h1, _⟩
    · refine ⟨_, Step.producerDone b s objs pages (h.producer ▸ hp) (h.cancelled ▸ hc), ?_⟩
      exact ⟨rfl, h.workers, h.nKeys, h.startAfter, h.cancelled, h.err, h.enqueued, h.mutated,
        by intro pg hpg; simp at hpg⟩
    · cases h1
  | worker i ev w0 w1 hw ha hs =>
    rcases sameButWrite_cases hl with rfl | ⟨_, _, _, _, h1, _⟩
    · have ha2 : b.allows ev = true := by
        cases ev <;> simp only [State.allows] at ha ⊢
        · rw [← h.cancelled]; exact ha
        · exact ha
        · rw [← h.producer]; exact ha
      refine ⟨_, Step.worker b i ev w0 w1 (h.workers ▸ hw) ha2 hs, ?_⟩
      apply alike_report
      exact ⟨h.producer, by simp [h.workers], h.nKeys, h.startAfter, h.cancelled, h.err,
        by simp [enqueued_append, h.enqueued], by simp [mutated_append, h.mutated],
        by intro pg hpg; exact h.file pg hpg⟩
    · cases h1

theorem alike_exec (sched1 : List Label) :
    ∀ (sched2 : List Label) (a b a1 : State), Alike a b → sameButWrites sched1 sched2 = true →
      exec a sched1 = some a1 → ∃ b1, exec b sched2 = some b1 ∧ Alike a1 b1 := by
  induction sched1 with
  | nil =>
    intro sched2 a b a1 h hs he
    cases sched2 with
    | nil =>
      simp [exec] at he
      subst he
      exact ⟨b, rfl, h⟩
    | cons l ls => simp [sameButWrites] at hs
  | cons l1 ls1 ih =>
    intro sched2 a b a1 h hs he
    cases sched2 with
    | nil => simp [sameButWrites] at hs
    | cons l2 ls2 =>
      simp only [sameButWrites, Bool.and_eq_true] at hs
      simp only [exec] at he
      cases hst : step a l1 with
      | none => simp [hst] at he
      | some a2 =>
        rw [hst] at he
        obtain ⟨b2, hb2, h2⟩ := alike_step h (Step.of_step hst) hs.1
        obtain ⟨b1, hb1, h1⟩ := ih ls2 a2 b2 a1 h2 hs.2 he
        exact ⟨b1, by simp [exec, Step.to_step hb2, hb1], h1⟩

/-- C6: a failure to persist the checkpoint never fails the run and never
changes what is sent: when two schedules differ at most in the outcomes of
the checkpoint writes (success or failure, and what a failed write leaves in
the file) and one of them is a run of the pipeline, so is the other, and both
runs have the same sequence of identifiers handed to `work`, the same
processed count `nKeys` and the same result of `group.Wait()`. -/
theorem checkpoint_failure_is_ignored (w : World) (sched1 sched2 : List Label) (st1 : State)
    (hs : sameButWrites sched1 sched2 = true) (h1 : exec (init w) sched1 = some st1) :
    ∃ st2, exec (init w) sched2 = some st2 ∧ enqueued st2.trace = enqueued st1.trace ∧
      st2.nKeys = st1.nKeys ∧ st2.wait = st1.wait := by
  obtain ⟨st2, h2, ha⟩ := alike_exec sched1 sched2 (init w) (init w) st1 (alike_refl _) hs h1
  refine ⟨st2, h2, ha.enqueued.symm, ha.nKeys.symm, ?_⟩
  simp [State.wait, ha.producer, ha.workers, ha.err]

/-- The runs `twoTicks` and `lastWriteFails` differ in the outcome of both writes
and in the final content of the state file, and in nothing else the property
names. -/
theorem checkpoint_failure_is_ignored_witness :
    sameButWrites twoTicks lastWriteFails = true ∧
    exec (init (abc none)) twoTicks = some (reach (abc none) twoTicks) ∧
    (reach (abc none) twoTicks).file ≠ (reach (abc none) lastWriteFails).file ∧
    ∃ st2, exec (init (abc none)) lastWriteFails = some st2 ∧
      enqueued st2.trace = enqueued (reach (abc none) twoTicks).trace ∧
      st2.nKeys = (reach (abc none) twoTicks).nKeys ∧
      st2.wait = (reach (abc none) twoTicks).wait :=
  ⟨by decide, by decide, by decide,
    checkpoint_failure_is_ignored (abc none) twoTicks lastWriteFails (reach (abc none) twoTicks)
      (by decide) (by decide)⟩

/-! ### Argument validation -/

/-- C7: `run bucket lastKeyFile` returns a non-nil error before it creates a
session, and without any listing, ACL call or access to the state file (its
trace is empty), if and only if `bucket` or `lastKeyFile` is the empty string;
in that case it returns the error of line 38 whatever the outside world, and
otherwise its first event is the creation of the session. Without a bucket
flag `main` passes the empty bucket name, which `run` rejects, and without a
state flag it passes the path `/tmp/fixacl-lastkey.txt`. -/
theorem run_validates_arguments (bucket lastKeyFile : GoString) (w : World)
    (sched : List Label) :
    ((bucket = [] ∨ lastKeyFile = []) →
      run bucket lastKeyFile w sched =
        some (.rejected (.errorf "both -bucket and -state should be set"))) ∧
    (∀ r, run bucket lastKeyFile w sched = some r →
      (((∃ e, r.result = some (some e)) ∧ r.trace = []) ↔ (bucket = [] ∨ lastKeyFile = [])) ∧
      (¬ (bucket = [] ∨ lastKeyFile = []) → r.trace.head? = some .newSession)) ∧
    (∀ stateFlag, run (mainArgs none stateFlag).1 (mainArgs none stateFlag).2 w sched =
      some (.rejected (.errorf "both -bucket and -state should be set"))) ∧
    (∀ bucketFlag, (mainArgs bucketFlag none).2 = str "/tmp/fixacl-lastkey.txt") ∧
    (run bucket (mainArgs (some bucket) none).2 w [] =
      some (.rejected (.errorf "both -bucket and -state should be set")) ↔ bucket = []) := by
  refine ⟨?_, ?_, ?_, ?_, ?_⟩
  · intro h
    simp [run, h]
  · intro r hr
    by_cases h : bucket = [] ∨ lastKeyFile = []
    · simp only [run, h, if_true, Option.some.injEq] at hr
      subst hr
      simp [Run.result, Run.trace, h]
    · simp only [run, h, if_false] at hr
      cases hs : w.session with
      | some e =>
        simp only [hs, Option.some.injEq] at hr
        subst hr
        simp [Run.trace, h]
      | none =>
        simp only [hs] at hr
        cases he : exec (init w) sched with
        | none => simp [he] at hr
        | some st =>
          simp only [he, Option.map_some', Option.some.injEq] at hr
          subst hr
          simp [Run.trace, h]
  · intro stateFlag
    simp [run, mainArgs]
  · intro bucketFlag
    rfl
  · have hne : str "/tmp/fixacl-lastkey.txt" ≠ [] := by decide
    by_cases h : bucket = []
    · simp [run, h]
    · simp only [run, mainArgs, Option.getD_none, h, hne, or_self, if_false, iff_false]
      cases w.session <;> simp [exec]

/-! ### The worker loop -/

theorem Worker.run_cons (w : Worker) (ev : WorkerEvent) (evs : List WorkerEvent) :
    Worker.run w (ev :: evs) =
      match Worker.step w ev with
      | none => none
      | some w1 =>
        match Worker.run w1 evs with
        | none => none
        | some (w2, calls) => some (w2, Worker.call w ev ++ calls) := rfl

theorem Worker.run_append (w : Worker) (a b : List WorkerEvent) :
    Worker.run w (a ++ b) =
      match Worker.run w a with
      | none => none
      | some (w1, c1) =>
        match Worker.run w1 b with
        | none => none
        | some (w2, c2) => some (w2, c1 ++ c2) := by
  induction a generalizing w with
  | nil =>
    simp only [List.nil_append, Worker.run]
    cases Worker.run w b with
    | none => rfl
    | some p => rfl
  | cons ev evs ih =>
    rw [List.cons_append, Worker.run_cons, Worker.run_cons]
    cases hs : Worker.step w ev with
    | none => rfl
    | some w1 =>
      simp only []
      rw [ih w1]
      cases h1 : Worker.run w1 evs with
      | none => rfl
      | some p =>
        obtain ⟨w2, c1⟩ := p
        simp only []
        cases h2 : Worker.run w2 b with
        | none => rfl
        | some q => simp

theorem Worker.run_served (ks : List GoString) :
    Worker.run .selecting (served ks) = some (.selecting, ks.map Event.mutate) := by
  induction ks with
  | nil => rfl
  | cons s ks ih =>
    have h : served (s :: ks) = [.recv s, .mutate none] ++ served ks := by simp [served]
    rw [h, Worker.run_append]
    simp [Worker.run, Worker.step, Worker.call, ih]

theorem Worker.run_received (evs : List WorkerEvent) :
    ∀ (w w1 : Worker) (calls : List Event), Worker.run w evs = some (w1, calls) →
      holds w ++ received evs = mutated calls ++ holds w1 := by
  induction evs with
  | nil =>
    intro w w1 calls h
    simp only [Worker.run, Option.some.injEq, Prod.mk.injEq] at h
    obtain ⟨rfl, rfl⟩ := h
    simp [received, mutated]
  | cons ev evs ih =>
    intro w w1 calls h
    simp only [Worker.run] at h
    cases hs : Worker.step w ev with
    | none => simp [hs] at h
    | some w2 =>
      rw [hs] at h
      cases hr : Worker.run w2 evs with
      | none => simp [hr] at h
      | some p =>
        obtain ⟨w3, c⟩ := p
        simp only [hr, Option.some.injEq, Prod.mk.injEq] at h
        obtain ⟨rfl, rfl⟩ := h
        have h1 := ih w2 w3 c hr
        rcases Worker.step_cases hs with ⟨rfl, rfl, rfl⟩ | ⟨s, rfl, rfl, rfl⟩ | ⟨rfl, rfl, rfl⟩ |
          ⟨s, rfl, rfl, rfl⟩ | ⟨s, e, rfl, rfl, rfl⟩ <;>
          simp [holds, received, Worker.call, mutated, mutated_append] at h1 ⊢ <;> exact h1

/-- C8: a worker calls the ACL operation exactly once for each identifier it
receives, in the order received, up to and including the first identifier
whose call fails. When it received the keys `ks` with calls that succeed and
then finds the channel closed, it returns `nil` having called once for each
key of `ks` in order; when the call for a further key `s` fails with `e`, it
returns `e` having called for `ks` and then `s`; when it observes the
cancellation instead, it returns `context.Canceled`; a worker that has
returned takes no further action and makes no further call (no retry); and
under every sequence of observations the keys received are exactly the keys
called, in order, followed by the key in hand. -/
theorem worker_attempts_once (ks : List GoString) (s : GoString) (e : Error)
    (r : Option Error) (ev : WorkerEvent) :
    Worker.run .selecting (served ks ++ [.closed]) =
      some (.returned none, ks.map Event.mutate) ∧
    Worker.run .selecting (served ks ++ [.recv s, .mutate (some e)]) =
      some (.returned (some e), (ks ++ [s]).map Event.mutate) ∧
    Worker.run .selecting (served ks ++ [.done]) =
      some (.returned (some .canceled), ks.map Event.mutate) ∧
    Worker.step (.returned r) ev = none ∧
    Worker.run (.returned r) [ev] = none ∧
    (∀ evs w1 calls, Worker.run .selecting evs = some (w1, calls) →
      received evs = mutated calls ++ holds w1) := by
  refine ⟨?_, ?_, ?_, ?_, ?_, ?_⟩
  · rw [Worker.run_append, Worker.run_served]
    simp [Worker.run, Worker.step, Worker.call]
  · rw [Worker.run_append, Worker.run_served]
    simp [Worker.run, Worker.step, Worker.call]
  · rw [Worker.run_append, Worker.run_served]
    simp [Worker.run, Worker.step, Worker.call]
  · cases ev <;> rfl
  · cases ev <;> rfl
  · intro evs w1 calls h
    simpa [holds] using Worker.run_received evs .selecting w1 calls h

/-! ### The order of the sends -/

/-- C9: for every sequence of pages whose keys all decode, the identifiers
`walkFn` hands to `work` are, under every schedule, a beginning of the decoded
keys of the listing entries in page order and within-page order (entries
without a key skipped), and `nKeys` is the number of sends that went through;
with no cancellation and no failed page request, once the producer has
returned they are all of these keys and `nKeys` is their number. -/
theorem enqueued_in_listing_order (w : World) (sched : List Label) (st : State)
    (hd : ∀ o ∈ objects w.pages, decodes o = true)
    (h : exec (init w) sched = some st) :
    st.nKeys = (enqueued st.trace).length ∧
    enqueued st.trace <+: decodedKeys (objects w.pages) ∧
    ((∀ l ∈ sched, Label.quiet l = true) → st.producer.isReturned = true →
      enqueued st.trace = decodedKeys (objects w.pages) ∧
      st.nKeys = (decodedKeys (objects w.pages)).length) := by
  have hc := count_exec w sched st h
  refine ⟨hc, ?_, ?_⟩
  · obtain ⟨t, ht⟩ := ahead_exec w sched st h
    rw [toEnqueue_decodes hd, List.append_assoc] at ht
    exact ⟨_, ht⟩
  · intro hq hr
    have ha := (calm_exec w sched st hq h).ahead
    rw [toEnqueue_decodes hd] at ha
    cases hp : st.producer with
    | returned r =>
      rw [hp, pending_returned, List.append_nil] at ha
      exact ⟨ha, by rw [hc, ha]⟩
    | _ => simp [hp, Producer.isReturned] at hr

/-- The run `lastWriteFails` over the example listing sends a, b, c and counts 3. -/
theorem enqueued_in_listing_order_witness :
    (∀ o ∈ objects (abc none).pages, decodes o = true) ∧
    exec (init (abc none)) lastWriteFails = some (reach (abc none) lastWriteFails) ∧
    (reach (abc none) lastWriteFails).nKeys = 3 ∧
    enqueued (reach (abc none) lastWriteFails).trace = [str "a", str "b", str "c"] := by
  have h := enqueued_in_listing_order (abc none) lastWriteFails (reach (abc none) lastWriteFails)
    (by decide) (by decide)
  have h2 := h.2.2 (by decide) (by decide)
  exact ⟨by decide, by decide, by rw [h2.2]; decide, by rw [h2.1]; decide⟩

/-- C10: when a raw key fails to decode, the enumeration halts at that key
and what was sent before is unaffected. Let the listing entries be `pre`,
then an entry whose key `url.QueryUnescape` rejects, then `post`, with the keys
of `pre` all decoding. Under every schedule the identifiers handed to `work`
are a beginning of the decoded keys of `pre` (nothing of `post` is ever sent,
from the rest of the page or from a later page) and `nKeys` is their number;
whenever `walkFn` itself ends the listing (the producer returns in a step
that is neither a cancellation nor a failed page request), the producer
returns `nil` and all decoded keys of `pre` were sent and counted; with no
cancellation and no failed page request this is so whenever the producer has
returned; and `walkFn` at the failing key returns at once, which ends the
listing. -/
theorem decode_failure_halts (w : World) (pre post : List Object) (key : GoString)
    (sched : List Label) (st : State)
    (hsplit : objects w.pages = pre ++ ⟨some key⟩ :: post)
    (hpre : ∀ o ∈ pre, decodes o = true) (hkey : decodes ⟨some key⟩ = false)
    (h : exec (init w) sched = some st) :
    enqueued st.trace <+: decodedKeys pre ∧
    st.nKeys = (enqueued st.trace).length ∧
    (∀ l st1, step st l = some st1 → (l = .fetch none ∨ ∃ t, l = .tick t) →
      st.producer.isReturned = false → st1.producer.isReturned = true →
      st1.producer = .returned none ∧ enqueued st1.trace = decodedKeys pre ∧
      st1.nKeys = (decodedKeys pre).length) ∧
    ((∀ l ∈ sched, Label.quiet l = true) → st.producer.isReturned = true →
      st.producer = .returned none ∧ enqueued st.trace = decodedKeys pre ∧
      st.nKeys = (decodedKeys pre).length) ∧
    (∀ objs pages, walkFn (⟨some key⟩ :: objs) pages = .returned none) := by
  have hc := count_exec w sched st h
  have hstop : toEnqueue (objects w.pages) = decodedKeys pre := by
    rw [hsplit]
    exact toEnqueue_stop hpre hkey
  refine ⟨?_, hc, ?_, ?_, ?_⟩
  · obtain ⟨t, ht⟩ := ahead_exec w sched st h
    rw [hstop, List.append_assoc] at ht
    exact ⟨_, ht⟩
  · intro l st1 hs hl hr hr1
    obtain ⟨h1, h2⟩ := walk_ends (exact_exec w sched st h hr) (Step.of_step hs) hl hr1
    rw [hstop] at h2
    refine ⟨h1, h2, ?_⟩
    rw [count_step (Step.of_step hs) hc, h2]
  · intro hq hr
    have hcalm := calm_exec w sched st hq h
    have ha := hcalm.ahead
    have hres := hcalm.producer
    rw [hstop] at ha
    cases hp : st.producer with
    | returned r =>
      rw [hp, pending_returned, List.append_nil] at ha
      rw [hp, result_returned] at hres
      exact ⟨by rw [hres], ha, by rw [hc, ha]⟩
    | _ => simp [hp, Producer.isReturned] at hr
  · intro objs pages
    simp only [decodes] at hkey
    simp only [walkFn]
    cases hu : QueryUnescape key with
    | error e => rfl
    | ok s => simp [hu] at hkey

/-- The run `pastBadKey` over the listing `undecodable` sends a only and counts 1. -/
theorem decode_failure_halts_witness :
    objects undecodable.pages = [⟨some (str "a")⟩] ++ ⟨some (str "%zz")⟩ :: [⟨some (str "b")⟩] ∧
    decodes ⟨some (str "%zz")⟩ = false ∧
    exec (init undecodable) pastBadKey = some (reach undecodable pastBadKey) ∧
    (reach undecodable pastBadKey).producer = .returned none ∧
    enqueued (reach undecodable pastBadKey).trace = [str "a"] ∧
    (reach undecodable pastBadKey).nKeys = 1 := by
  have h := decode_failure_halts undecodable [⟨some (str "a")⟩] [⟨some (str "b")⟩] (str "%zz")
    pastBadKey (reach undecodable pastBadKey) (by decide) (by decide) (by decide) (by decide)
  have h2 := h.2.2.2.1 (by decide) (by decide)
  exact ⟨by decide, by decide, by decide, h2.1, by rw [h2.2.1]; decide, by rw [h2.2.2]; decide⟩

end S3SetAcl
